import Mathlib

/-!
# Verification of the qsp lookup/expand core

A shallow embedding of the property-inheritance resolver (`lookup`) and the
string macro expander (`expand`) from `src/lookup.js` of the qsp repository,
together with proofs about the claims of its specification.

Modelling conventions:
* JavaScript runs are represented by `Run α`: `.timeout` (fuel exhausted in
  the fuel-indexed embedding), `.thrown` (a JS exception such as the
  `TypeError` raised by reading a property of `undefined`), `.ret a`
  (a normal return).
* `null`/`undefined` results are `Option.none`; the nullish-coalescing
  operator `??` corresponds to stopping at `Option.some`, so `false`, `0`
  and `""` (all `some _`) stop the chain exactly as in JS.
* Strings are Lean `String`s (well-formed Unicode; JS lone surrogates are
  outside the model).  JS numbers appearing as token keys are modelled
  exactly for the integral values the token grammar `\w+` can produce;
  IEEE-754 rounding above 2^53 and decimal printing above 1e21 are outside
  the model (no claim depends on them).
-/

namespace Qsp

/-- The result of running a piece of JS code: fuel exhaustion (an artifact of
the fuel-indexed embedding), a thrown exception, or a normal return. -/
inductive Run (α : Type) where
  | timeout
  | thrown
  | ret (a : α)
deriving DecidableEq, Repr

/-- JS object-map access: first entry whose key matches (the modelled JSON
maps have distinct keys). Returns `none` for a missing key (`undefined`). -/
def assocFind {α : Type} (l : List (String × α)) (k : String) : Option α :=
  (l.find? (fun p => p.1 == k)).map (·.2)

/-- A value stored in a `PanelButton` property (`button[key]`): JS strings,
numbers, booleans, and opaque objects (e.g. the `request` object, tagged by
an identity number).  `undefined`/missing is `Option.none` at use sites. -/
inductive PropVal where
  | vStr (s : String)
  | vNum (n : Int)
  | vBool (b : Bool)
  | vObj (id : Nat)
deriving DecidableEq, Repr

/-- `PanelButton` (types.ts): `is`, `set` and `setList` are modelled
structurally (they drive inheritance and expansion); `text` and the remaining
scalar/object properties are reachable through dynamic `button[key]` access,
the latter via the `props` association list (absent key = `undefined`). -/
structure PanelButton where
  text : String := ""
  is : Option String := none
  set : Option (List (String × String)) := none
  setList : Option (List String) := none
  props : List (String × PropVal) := []
deriving DecidableEq, Repr

/-- `ClientApp` restricted to what `lookup`/`expand` read: `config.templates`
(optional map of template buttons) and `setGlobals`.  `setGlobals` is
`Option`al because the `ClientApp` type of types.ts has no such field and no
app constructed by the repository defines it: reading
`app.setGlobals[setKey]` on such an app throws a `TypeError` in JS. -/
structure ClientApp where
  templates : Option (List (String × PanelButton)) := none
  setGlobals : Option (List (String × String)) := none
deriving DecidableEq, Repr

/-- `button?.is ? (templates?.[button.is] ?? null) : null` — the truthiness
test on `button.is` means an empty-string template name yields no parent. -/
def getParent (app : ClientApp) (b : PanelButton) : Option PanelButton :=
  match b.is with
  | some nm => if nm = "" then none else app.templates.bind (fun ts => assocFind ts nm)
  | none => none

/-- Dynamic property read `button[key]` for property-mode lookups.  `text`
and `is` are the structural fields; every other property lives in `props`. -/
def getOwn (b : PanelButton) (key : String) : Option PropVal :=
  if key = "text" then some (.vStr b.text)
  else if key = "is" then b.is.map .vStr
  else assocFind b.props key

/-- A `set`/`setList` key as produced by `number(Number(mKey)) ?? string(mKey)`:
a string key, a non-negative integral number, or the JS number `Infinity`. -/
inductive SetKey where
  | str (s : String)
  | num (n : Nat)
  | inf
deriving DecidableEq, Repr

/-- JS property-key coercion `String(setKey)` used by `app.setGlobals[setKey]`
when the key is a number. -/
def setKeyPropName : SetKey → String
  | .str s => s
  | .num n => Nat.repr n
  | .inf => "Infinity"

/-- `(fromMap ? button.set?.[setKey] : null) ?? (fromList ? button.setList?.[setKey] : null)`:
the record's own `set` entry (string keys) or `setList` element (number keys).
`Infinity` as an array index reads `undefined`. -/
def ownSetVal (b : PanelButton) : SetKey → Option String
  | .str s => b.set.bind (fun m => assocFind m s)
  | .num n => b.setList.bind (fun l => l[n]?)
  | .inf => none

/-- JS `\w` (the regex has no `u` flag): ASCII alphanumeric or underscore. -/
def isWordChar (c : Char) : Bool := c.isAlphanum || c = '_'

/-! ## The token grammar `/\$(\\+)?\{((?:(\w+):)?(\w+))\}/`

`matchAfterDollar` decides whether the regex matches at a position directly
after a `$`, and extracts the groups: the escaping backslashes (group 1), the
whole body (group 2), an optional transform-function name (group 3), and the
key (group 4).  Backtracking makes the body match exactly `\w+` or
`\w+ ':' \w+`. -/

structure TokenMatch where
  slashes : Nat
  fn : Option String
  keyText : String
  body : String
  rest : List Char
deriving DecidableEq, Repr

/-- Consume one expected character. -/
def expectChar (c : Char) : List Char → Option (List Char)
  | x :: xs => if x = c then some xs else none
  | [] => none

/-- Consume a non-empty maximal run of `\w` characters. -/
def word1 (cs : List Char) : Option (List Char × List Char) :=
  match cs.takeWhile isWordChar with
  | [] => none
  | w => some (w, cs.dropWhile isWordChar)

def matchAfterDollar (cs : List Char) : Option TokenMatch :=
  (expectChar '{' (cs.dropWhile (· = '\\'))).bind fun cs2 =>
  (word1 cs2).bind fun p1 =>
  match expectChar '}' p1.2 with
  | some rest =>
      some ⟨(cs.takeWhile (· = '\\')).length, none,
            String.mk p1.1, String.mk p1.1, rest⟩
  | none =>
    (expectChar ':' p1.2).bind fun cs4 =>
    (word1 cs4).bind fun p2 =>
    (expectChar '}' p2.2).map fun rest =>
      ⟨(cs.takeWhile (· = '\\')).length, some (String.mk p1.1),
       String.mk p2.1, String.mk (p1.1 ++ ':' :: p2.1), rest⟩

theorem expectChar_length {c : Char} {cs r : List Char}
    (h : expectChar c cs = some r) : r.length + 1 = cs.length := by
  cases cs with
  | nil => cases h
  | cons x xs =>
    simp only [expectChar] at h
    by_cases hx : x = c
    · rw [if_pos hx] at h
      cases h
      simp
    · rw [if_neg hx] at h
      cases h

theorem word1_length {cs : List Char} {p : List Char × List Char}
    (h : word1 cs = some p) : p.2.length ≤ cs.length := by
  unfold word1 at h
  have hs := (List.dropWhile_sublist isWordChar (l := cs)).length_le
  split at h
  · cases h
  · cases h
    exact hs

/-- The full matched text `match` of a token. -/
def matchedText (t : TokenMatch) : String :=
  "$" ++ String.mk (List.replicate t.slashes '\\') ++ "\x7b" ++ t.body ++ "\x7d"

/-- The replacement for an escaped token:
`` `$${slash.substring(1)}{${body}}` `` — one backslash removed, body kept. -/
def peeledText (t : TokenMatch) : String :=
  "$" ++ String.mk (List.replicate (t.slashes - 1) '\\') ++ "\x7b" ++ t.body ++ "\x7d"

/-! ## `Number(mKey)` on `\w+` strings

The token key is classified by `number(Number(mKey)) ?? string(mKey)`.
On a `\w+` string, `Number` yields a non-NaN value exactly for decimal digit
runs, `0x`/`0b`/`0o` radix literals, `digits e digits` exponent forms and
`Infinity`; everything else is NaN and falls through to the string key. -/

def digitsVal (base : Nat) (value : Char → Option Nat) : List Char → Option Nat
  | [] => none
  | cs => cs.foldl (fun acc c => acc.bind (fun a => (value c).map (a * base + ·)))
        (some 0)

def decDigit (c : Char) : Option Nat :=
  if c.isDigit then some (c.toNat - 48) else none

def hexDigit (c : Char) : Option Nat :=
  if c.isDigit then some (c.toNat - 48)
  else if 'a' ≤ c ∧ c ≤ 'f' then some (c.toNat - 87)
  else if 'A' ≤ c ∧ c ≤ 'F' then some (c.toNat - 55)
  else none

def binDigit (c : Char) : Option Nat :=
  if c = '0' then some 0 else if c = '1' then some 1 else none

def octDigit (c : Char) : Option Nat :=
  if '0' ≤ c ∧ c ≤ '7' then some (c.toNat - 48) else none

/-- The JS numbers a `\w+` token body can denote: finite non-negative
integers, or `Infinity`. -/
inductive JsNum where
  | fin (n : Nat)
  | inf
deriving DecidableEq, Repr

/-- `digits (e|E) digits` exponent form (no sign or dot fits in `\w+`). -/
def expForm (cs : List Char) : Option JsNum :=
  let m := cs.takeWhile Char.isDigit
  match cs.dropWhile Char.isDigit with
  | e :: rest =>
    if (e = 'e' ∨ e = 'E') ∧ m ≠ [] then
      match digitsVal 10 decDigit rest with
      | some k => (digitsVal 10 decDigit m).map (fun v => .fin (v * 10 ^ k))
      | none => none
    else none
  | [] => none

/-- `Number` applied to a `\w+` string, `none` meaning NaN. -/
def jsWordNumber (s : String) : Option JsNum :=
  if s = "Infinity" then some .inf else
  match digitsVal 10 decDigit s.data with
  | some n => some (.fin n)
  | none =>
    match s.data with
    | '0' :: c :: rest =>
      if c = 'x' ∨ c = 'X' then (digitsVal 16 hexDigit rest).map .fin
      else if c = 'b' ∨ c = 'B' then (digitsVal 2 binDigit rest).map .fin
      else if c = 'o' ∨ c = 'O' then (digitsVal 8 octDigit rest).map .fin
      else expForm s.data
    | _ => expForm s.data

/-- `const key = number(Number(mKey)) ?? string(mKey) ?? ''`. -/
def parseTokenKey (s : String) : SetKey :=
  match jsWordNumber s with
  | some (.fin n) => .num n
  | some .inf => .inf
  | none => .str s

/-! ## `encodeURIComponent` and `JSON.stringify` on strings -/

def hexDigitUpper (n : Nat) : Char :=
  if n < 10 then Char.ofNat (48 + n) else Char.ofNat (55 + n)

def hexDigitLower (n : Nat) : Char :=
  if n < 10 then Char.ofNat (48 + n) else Char.ofNat (87 + n)

/-- UTF-8 encoding of a scalar value, as byte values. -/
def utf8Bytes (c : Char) : List Nat :=
  let n := c.toNat
  if n < 0x80 then [n]
  else if n < 0x800 then [0xC0 + n / 0x40, 0x80 + n % 0x40]
  else if n < 0x10000 then
    [0xE0 + n / 0x1000, 0x80 + (n / 0x40) % 0x40, 0x80 + n % 0x40]
  else
    [0xF0 + n / 0x40000, 0x80 + (n / 0x1000) % 0x40,
     0x80 + (n / 0x40) % 0x40, 0x80 + n % 0x40]

/-- `encodeURIComponent` leaves `A–Z a–z 0–9 - _ . ! ~ * ' ( )` and
percent-encodes the UTF-8 bytes of everything else (uppercase hex). -/
def isUriUnreserved (c : Char) : Bool :=
  c.isAlphanum || c ∈ ['-', '_', '.', '!', '~', '*', Char.ofNat 39, '(', ')']

def uriEncodeChar (c : Char) : List Char :=
  if isUriUnreserved c then [c]
  else (utf8Bytes c).flatMap (fun b => ['%', hexDigitUpper (b / 16), hexDigitUpper (b % 16)])

def uriEncode (s : String) : String := String.mk (s.data.flatMap uriEncodeChar)

/-- The escaping `JSON.stringify` applies inside a string literal. -/
def jsonEscapeChar (c : Char) : List Char :=
  if c = '"' then ['\\', '"']
  else if c = '\\' then ['\\', '\\']
  else if c.toNat = 8 then ['\\', 'b']
  else if c = '\t' then ['\\', 't']
  else if c = '\n' then ['\\', 'n']
  else if c.toNat = 12 then ['\\', 'f']
  else if c.toNat = 13 then ['\\', 'r']
  else if c.toNat < 32 then
    ['\\', 'u', '0', '0', hexDigitLower (c.toNat / 16), hexDigitLower (c.toNat % 16)]
  else [c]

/-- `JSON.stringify` of a string: a double-quoted escaped literal. -/
def jsonStringLit (s : String) : String :=
  String.mk ('"' :: (s.data.flatMap jsonEscapeChar ++ ['"']))

/-- `value && fn` transform application followed by `value ?? match`:
a truthy (non-null, non-empty) value is transformed by `urlencode` or
`jsonString`, an unknown transform passes the value through, a `null` value
degrades to the raw matched text, and an empty string stays empty. -/
def applyTransform (fn : Option String) (value : Option String) (matchText : String) : String :=
  match value with
  | some s =>
    if s ≠ "" ∧ fn = some "urlencode" then uriEncode s
    else if s ≠ "" ∧ fn = some "jsonString" then jsonStringLit s
    else s
  | none => matchText

/-- Prepend a piece of output to the rest of a run. -/
def runPrepend (p : String) : Run String → Run String
  | .ret s => .ret (p ++ s)
  | .timeout => .timeout
  | .thrown => .thrown

theorem matchAfterDollar_rest_length {cs : List Char} {t : TokenMatch}
    (h : matchAfterDollar cs = some t) : t.rest.length < cs.length := by
  have hdw := (List.dropWhile_sublist (fun c => decide (c = '\\')) (l := cs)).length_le
  unfold matchAfterDollar at h
  rw [Option.bind_eq_some] at h
  obtain ⟨cs2, hb, h⟩ := h
  have l1 := expectChar_length hb
  rw [Option.bind_eq_some] at h
  obtain ⟨p1, hw1, h⟩ := h
  have l2 := word1_length hw1
  split at h
  · rename_i rest hr
    have l3 := expectChar_length hr
    cases h
    simp only []
    omega
  · rw [Option.bind_eq_some] at h
    obtain ⟨cs4, hc, h⟩ := h
    have l4 := expectChar_length hc
    rw [Option.bind_eq_some] at h
    obtain ⟨p2, hw2, h⟩ := h
    have l5 := word1_length hw2
    rw [Option.map_eq_some'] at h
    obtain ⟨rest, hr, h⟩ := h
    have l6 := expectChar_length hr
    subst h
    simp only []
    omega

/-! ## The mutually recursive `lookup` (set/setList mode) and `expand`

`lookup` (src/lookup.js) is one JS function with two overloads; the
set/setList overload (`key === null`) is `lookupSet`, the property overload
(`setKey === null`) is `lookupProp` further below.  `expand` is `expandF`;
its `replaceAll` loop over the token regex is `scanF`.  The `Nat` argument
is fuel for the recursion of the embedding (one unit per call, including the
per-character steps of the scan), so `.timeout` corresponds to a run needing
more recursion than the fuel allows; `EvalSet`/`EvalProp`/`EvalExpand` below
quantify the fuel away. -/

mutual

/-- `lookup(app, button, null, setKey, isLookup, seen)`:
own `set`/`setList` (`??`-chained), else the parent via `is` in
internal-lookup mode, else `app.setGlobals[setKey]` — which throws when
`setGlobals` is `undefined` — and finally, when the call is not an internal
lookup and the result is a string, expansion seeded with
`seen ?? new Set([setKey])`. -/
def lookupSet : Nat → ClientApp → Option PanelButton → SetKey → Bool →
    Option (List SetKey) → Run (Option String)
  | 0, _, _, _, _, _ => .timeout
  | fuel + 1, app, obutton, sk, isLookup, oseen =>
    match obutton with
    | none => .ret none
    | some b =>
      let raw : Run (Option String) :=
        match ownSetVal b sk with
        | some v => .ret (some v)
        | none =>
          match lookupSet fuel app (getParent app b) sk true oseen with
          | .timeout => .timeout
          | .thrown => .thrown
          | .ret (some v) => .ret (some v)
          | .ret none =>
            match app.setGlobals with
            | none => .thrown
            | some g => .ret (assocFind g (setKeyPropName sk))
      match raw with
      | .ret (some s) =>
        if isLookup then .ret (some s)
        else
          match expandF fuel app obutton s (oseen.getD [sk]) with
          | .timeout => .timeout
          | .thrown => .thrown
          | .ret t => .ret (some t)
      | r => r

/-- `expand(app, button, text, seen)`. -/
def expandF : Nat → ClientApp → Option PanelButton → String → List SetKey →
    Run String
  | 0, _, _, _, _ => .timeout
  | fuel + 1, app, obutton, text, seen => scanF fuel app obutton text.data seen

/-- The left-to-right `replaceAll` scan of `expand`: at each `$` try the
token regex; an escaped token is peeled by one backslash; a token whose key
is in `seen` is emitted verbatim; otherwise the key is added to `seen`, the
value fetched through a non-internal set lookup, and the transform/fallback
logic of the replacement callback applied. -/
def scanF : Nat → ClientApp → Option PanelButton → List Char → List SetKey →
    Run String
  | 0, _, _, _, _ => .timeout
  | _ + 1, _, _, [], _ => .ret ""
  | fuel + 1, app, obutton, c :: cs, seen =>
    if c = '$' then
      match matchAfterDollar cs with
      | none => runPrepend (String.mk [c]) (scanF fuel app obutton cs seen)
      | some t =>
        if 0 < t.slashes then
          runPrepend (peeledText t) (scanF fuel app obutton t.rest seen)
        else
          if parseTokenKey t.keyText ∈ seen then
            runPrepend (matchedText t) (scanF fuel app obutton t.rest seen)
          else
            match lookupSet fuel app obutton (parseTokenKey t.keyText) false
                (some (parseTokenKey t.keyText :: seen)) with
            | .timeout => .timeout
            | .thrown => .thrown
            | .ret value =>
              runPrepend (applyTransform t.fn value (matchedText t))
                (scanF fuel app obutton t.rest seen)
    else
      runPrepend (String.mk [c]) (scanF fuel app obutton cs seen)

end

/-- `lookup(app, button, key, null, isLookup, seen)` — the property-mode
overload: `button[key] ?? lookup(app, parent, key, null, true, seen)`, then
expansion (seeded with `seen ?? new Set([''])`) whenever the value is a
string and the call is not an internal lookup. -/
def lookupProp : Nat → ClientApp → Option PanelButton → String → Bool →
    Option (List SetKey) → Run (Option PropVal)
  | 0, _, _, _, _, _ => .timeout
  | fuel + 1, app, obutton, key, isLookup, oseen =>
    match obutton with
    | none => .ret none
    | some b =>
      let raw : Run (Option PropVal) :=
        match getOwn b key with
        | some v => .ret (some v)
        | none => lookupProp fuel app (getParent app b) key true oseen
      match raw with
      | .ret (some (.vStr s)) =>
        if isLookup then .ret (some (.vStr s))
        else
          match expandF fuel app obutton s (oseen.getD [.str ""]) with
          | .timeout => .timeout
          | .thrown => .thrown
          | .ret t => .ret (some (.vStr t))
      | r => r

/-! ## Unfolding equations -/

theorem scanF_zero {app : ClientApp} {ob : Option PanelButton}
    {cs : List Char} {seen : List SetKey} : scanF 0 app ob cs seen = .timeout := rfl

theorem scanF_nil {m : Nat} {app : ClientApp} {ob : Option PanelButton}
    {seen : List SetKey} : scanF (m + 1) app ob [] seen = .ret "" := rfl

theorem scanF_cons_nondollar {m : Nat} {app : ClientApp} {ob : Option PanelButton}
    {c : Char} {cs : List Char} {seen : List SetKey} (h : ¬c = '$') :
    scanF (m + 1) app ob (c :: cs) seen =
      runPrepend (String.mk [c]) (scanF m app ob cs seen) := by
  rw [scanF, if_neg h]

theorem scanF_cons_nomatch {m : Nat} {app : ClientApp} {ob : Option PanelButton}
    {cs : List Char} {seen : List SetKey} (h : matchAfterDollar cs = none) :
    scanF (m + 1) app ob ('$' :: cs) seen =
      runPrepend "$" (scanF m app ob cs seen) := by
  rw [scanF, if_pos rfl, h]

theorem scanF_cons_escaped {m : Nat} {app : ClientApp} {ob : Option PanelButton}
    {cs : List Char} {seen : List SetKey} {t : TokenMatch}
    (h : matchAfterDollar cs = some t) (hs : 0 < t.slashes) :
    scanF (m + 1) app ob ('$' :: cs) seen =
      runPrepend (peeledText t) (scanF m app ob t.rest seen) := by
  rw [scanF, if_pos rfl, h]
  simp only [if_pos hs]

theorem scanF_cons_seen {m : Nat} {app : ClientApp} {ob : Option PanelButton}
    {cs : List Char} {seen : List SetKey} {t : TokenMatch}
    (h : matchAfterDollar cs = some t) (hs : t.slashes = 0)
    (hk : parseTokenKey t.keyText ∈ seen) :
    scanF (m + 1) app ob ('$' :: cs) seen =
      runPrepend (matchedText t) (scanF m app ob t.rest seen) := by
  rw [scanF, if_pos rfl, h]
  simp only [hs, Nat.lt_irrefl, if_false, if_pos hk]

theorem scanF_cons_tok {m : Nat} {app : ClientApp} {ob : Option PanelButton}
    {cs : List Char} {seen : List SetKey} {t : TokenMatch}
    (h : matchAfterDollar cs = some t) (hs : t.slashes = 0)
    (hk : ¬parseTokenKey t.keyText ∈ seen) :
    scanF (m + 1) app ob ('$' :: cs) seen =
      match lookupSet m app ob (parseTokenKey t.keyText) false
          (some (parseTokenKey t.keyText :: seen)) with
      | .timeout => .timeout
      | .thrown => .thrown
      | .ret value =>
        runPrepend (applyTransform t.fn value (matchedText t))
          (scanF m app ob t.rest seen) := by
  rw [scanF, if_pos rfl, h]
  simp only [hs, Nat.lt_irrefl, if_false, if_neg hk]

/-- The shared final `return` line of `lookup` (set mode): expand string
results of non-internal lookups, seeded with `seen ?? new Set([setKey])`. -/
def setFinish (m : Nat) (app : ClientApp) (ob : Option PanelButton) (sk : SetKey)
    (il : Bool) (oseen : Option (List SetKey)) : Run (Option String) → Run (Option String)
  | .ret (some s) =>
    if il then .ret (some s)
    else
      match expandF m app ob s (oseen.getD [sk]) with
      | .timeout => .timeout
      | .thrown => .thrown
      | .ret t => .ret (some t)
  | r => r

/-- The parent-then-globals tail of the `??` chain computing `setValue`. -/
def setRawAux (rparent : Run (Option String))
    (glob : Option (List (String × String))) (sk : SetKey) : Run (Option String) :=
  match rparent with
  | .timeout => .timeout
  | .thrown => .thrown
  | .ret (some v) => .ret (some v)
  | .ret none =>
    match glob with
    | none => .thrown
    | some g => .ret (assocFind g (setKeyPropName sk))

theorem lookupSet_zero {app : ClientApp} {ob : Option PanelButton} {sk : SetKey}
    {il : Bool} {os : Option (List SetKey)} :
    lookupSet 0 app ob sk il os = .timeout := rfl

theorem lookupSet_none {m : Nat} {app : ClientApp} {sk : SetKey} {il : Bool}
    {os : Option (List SetKey)} :
    lookupSet (m + 1) app none sk il os = .ret none := rfl

theorem lookupSet_some {m : Nat} {app : ClientApp} {b : PanelButton} {sk : SetKey}
    {il : Bool} {os : Option (List SetKey)} :
    lookupSet (m + 1) app (some b) sk il os =
      setFinish m app (some b) sk il os
        (match ownSetVal b sk with
         | some v => .ret (some v)
         | none => setRawAux (lookupSet m app (getParent app b) sk true os)
             app.setGlobals sk) := by
  rw [lookupSet]
  cases hov : ownSetVal b sk <;>
    cases hp : lookupSet m app (getParent app b) sk true os <;>
      simp [setFinish, setRawAux, hov, hp] <;>
        rfl

/-- The final `return` line of property-mode `lookup`: only string values
are expanded, seeded with `seen ?? new Set([''])`. -/
def propFinish (m : Nat) (app : ClientApp) (ob : Option PanelButton)
    (il : Bool) (oseen : Option (List SetKey)) : Run (Option PropVal) → Run (Option PropVal)
  | .ret (some (.vStr s)) =>
    if il then .ret (some (.vStr s))
    else
      match expandF m app ob s (oseen.getD [.str ""]) with
      | .timeout => .timeout
      | .thrown => .thrown
      | .ret t => .ret (some (.vStr t))
  | r => r

theorem lookupProp_zero {app : ClientApp} {ob : Option PanelButton} {key : String}
    {il : Bool} {os : Option (List SetKey)} :
    lookupProp 0 app ob key il os = .timeout := rfl

theorem lookupProp_none {m : Nat} {app : ClientApp} {key : String} {il : Bool}
    {os : Option (List SetKey)} :
    lookupProp (m + 1) app none key il os = .ret none := rfl

theorem lookupProp_some {m : Nat} {app : ClientApp} {b : PanelButton} {key : String}
    {il : Bool} {os : Option (List SetKey)} :
    lookupProp (m + 1) app (some b) key il os =
      propFinish m app (some b) il os
        (match getOwn b key with
         | some v => .ret (some v)
         | none => lookupProp m app (getParent app b) key true os) := by
  rw [lookupProp]
  cases hov : getOwn b key <;> simp [propFinish, hov] <;> rfl

/-! ## Fuel monotonicity

Once a run completes (returns or throws) at some fuel, adding fuel does not
change the outcome; only `.timeout` can turn into something else. -/

theorem runPrepend_ne_timeout {p : String} {r : Run String} :
    runPrepend p r ≠ .timeout ↔ r ≠ .timeout := by
  cases r <;> simp [runPrepend]

theorem setFinish_mono {m : Nat} {app : ClientApp} {ob : Option PanelButton}
    {sk : SetKey} {il : Bool} {os : Option (List SetKey)} {raw : Run (Option String)}
    (hexp : ∀ s seen, expandF m app ob s seen ≠ .timeout →
      expandF (m + 1) app ob s seen = expandF m app ob s seen)
    (hnt : setFinish m app ob sk il os raw ≠ .timeout) :
    setFinish (m + 1) app ob sk il os raw = setFinish m app ob sk il os raw := by
  cases raw with
  | timeout => simp [setFinish] at hnt
  | thrown => rfl
  | ret v =>
    cases v with
    | none => rfl
    | some s =>
      simp only [setFinish] at hnt ⊢
      by_cases hil : il
      · simp only [if_pos hil]
      · simp only [if_neg hil] at hnt ⊢
        cases he : expandF m app ob s (os.getD [sk]) with
        | timeout => rw [he] at hnt; simp at hnt
        | thrown => rw [hexp s (os.getD [sk]) (by rw [he]; simp), he]
        | ret t => rw [hexp s (os.getD [sk]) (by rw [he]; simp), he]

theorem mono_all : ∀ m : Nat,
    (∀ app ob sk il os, lookupSet m app ob sk il os ≠ .timeout →
      lookupSet (m + 1) app ob sk il os = lookupSet m app ob sk il os) ∧
    (∀ app ob cs seen, scanF m app ob cs seen ≠ .timeout →
      scanF (m + 1) app ob cs seen = scanF m app ob cs seen) ∧
    (∀ app ob text seen, expandF m app ob text seen ≠ .timeout →
      expandF (m + 1) app ob text seen = expandF m app ob text seen) := by
  intro m
  induction m with
  | zero =>
    refine ⟨fun app ob sk il os hnt => absurd rfl hnt,
      fun app ob cs seen hnt => absurd rfl hnt,
      fun app ob text seen hnt => absurd rfl hnt⟩
  | succ m ih =>
    obtain ⟨ihL, ihC, ihE⟩ := ih
    have stepL : ∀ app ob sk il os, lookupSet (m + 1) app ob sk il os ≠ .timeout →
        lookupSet (m + 2) app ob sk il os = lookupSet (m + 1) app ob sk il os := by
      intro app ob sk il os hnt
      cases ob with
      | none => rw [lookupSet_none, lookupSet_none]
      | some b =>
        rw [lookupSet_some] at hnt
        rw [lookupSet_some (m := m + 1), lookupSet_some (m := m)]
        cases hov : ownSetVal b sk with
        | some v =>
          rw [hov] at hnt
          exact setFinish_mono (fun s seen h => ihE app (some b) s seen h) hnt
        | none =>
          rw [hov] at hnt
          cases hp : lookupSet m app (getParent app b) sk true os with
          | timeout => rw [hp] at hnt; simp [setRawAux, setFinish] at hnt
          | thrown =>
            rw [hp] at hnt
            rw [ihL app (getParent app b) sk true os (by rw [hp]; simp), hp]
            exact setFinish_mono (fun s seen h => ihE app (some b) s seen h) hnt
          | ret v =>
            rw [hp] at hnt
            rw [ihL app (getParent app b) sk true os (by rw [hp]; simp), hp]
            exact setFinish_mono (fun s seen h => ihE app (some b) s seen h) hnt
    have stepC : ∀ app ob cs seen, scanF (m + 1) app ob cs seen ≠ .timeout →
        scanF (m + 2) app ob cs seen = scanF (m + 1) app ob cs seen := by
      intro app ob cs seen hnt
      cases cs with
      | nil => rw [scanF_nil, scanF_nil]
      | cons c cs' =>
        by_cases hc : c = '$'
        · subst hc
          cases hm : matchAfterDollar cs' with
          | none =>
            rw [scanF_cons_nomatch hm] at hnt
            rw [scanF_cons_nomatch (m := m + 1) hm, scanF_cons_nomatch (m := m) hm]
            rw [ihC app ob cs' seen (runPrepend_ne_timeout.mp hnt)]
          | some t =>
            by_cases hs : 0 < t.slashes
            · rw [scanF_cons_escaped hm hs] at hnt
              rw [scanF_cons_escaped (m := m + 1) hm hs, scanF_cons_escaped (m := m) hm hs]
              rw [ihC app ob t.rest seen (runPrepend_ne_timeout.mp hnt)]
            · have hs0 : t.slashes = 0 := by omega
              by_cases hk : parseTokenKey t.keyText ∈ seen
              · rw [scanF_cons_seen hm hs0 hk] at hnt
                rw [scanF_cons_seen (m := m + 1) hm hs0 hk, scanF_cons_seen (m := m) hm hs0 hk]
                rw [ihC app ob t.rest seen (runPrepend_ne_timeout.mp hnt)]
              · rw [scanF_cons_tok hm hs0 hk] at hnt
                rw [scanF_cons_tok (m := m + 1) hm hs0 hk, scanF_cons_tok (m := m) hm hs0 hk]
                cases hlk : lookupSet m app ob (parseTokenKey t.keyText) false
                    (some (parseTokenKey t.keyText :: seen)) with
                | timeout => rw [hlk] at hnt; simp at hnt
                | thrown => rw [ihL _ _ _ _ _ (by rw [hlk]; simp), hlk]
                | ret v =>
                  rw [hlk] at hnt
                  rw [ihL _ _ _ _ _ (by rw [hlk]; simp), hlk]
                  simp only []
                  rw [ihC app ob t.rest seen (runPrepend_ne_timeout.mp hnt)]
        · rw [scanF_cons_nondollar hc] at hnt
          rw [scanF_cons_nondollar (m := m + 1) hc, scanF_cons_nondollar (m := m) hc]
          rw [ihC app ob cs' seen (runPrepend_ne_timeout.mp hnt)]
    refine ⟨stepL, stepC, ?_⟩
    intro app ob text seen hnt
    rw [expandF] at hnt
    rw [expandF, expandF]
    exact ihC app ob text.data seen hnt

theorem lookupSet_mono_le {m m' : Nat} (h : m ≤ m') {app : ClientApp}
    {ob : Option PanelButton} {sk : SetKey} {il : Bool} {os : Option (List SetKey)}
    (hnt : lookupSet m app ob sk il os ≠ .timeout) :
    lookupSet m' app ob sk il os = lookupSet m app ob sk il os := by
  induction m' with
  | zero =>
    have hm0 : m = 0 := Nat.le_zero.mp h
    subst hm0
    rfl
  | succ m' ih =>
    rcases Nat.lt_or_ge m (m' + 1) with hlt | hge
    · have hle : m ≤ m' := Nat.lt_succ_iff.mp hlt
      rw [← ih hle]
      have := (mono_all m').1 app ob sk il os (by rw [ih hle]; exact hnt)
      rw [this, ih hle]
    · have heq : m = m' + 1 := Nat.le_antisymm h hge
      subst heq
      rfl

theorem scanF_mono_le {m m' : Nat} (h : m ≤ m') {app : ClientApp}
    {ob : Option PanelButton} {cs : List Char} {seen : List SetKey}
    (hnt : scanF m app ob cs seen ≠ .timeout) :
    scanF m' app ob cs seen = scanF m app ob cs seen := by
  induction m' with
  | zero =>
    have hm0 : m = 0 := Nat.le_zero.mp h
    subst hm0
    rfl
  | succ m' ih =>
    rcases Nat.lt_or_ge m (m' + 1) with hlt | hge
    · have hle : m ≤ m' := Nat.lt_succ_iff.mp hlt
      rw [← ih hle]
      have := (mono_all m').2.1 app ob cs seen (by rw [ih hle]; exact hnt)
      rw [this, ih hle]
    · have heq : m = m' + 1 := Nat.le_antisymm h hge
      subst heq
      rfl

theorem expandF_mono_le {m m' : Nat} (h : m ≤ m') {app : ClientApp}
    {ob : Option PanelButton} {text : String} {seen : List SetKey}
    (hnt : expandF m app ob text seen ≠ .timeout) :
    expandF m' app ob text seen = expandF m app ob text seen := by
  induction m' with
  | zero =>
    have hm0 : m = 0 := Nat.le_zero.mp h
    subst hm0
    rfl
  | succ m' ih =>
    rcases Nat.lt_or_ge m (m' + 1) with hlt | hge
    · have hle : m ≤ m' := Nat.lt_succ_iff.mp hlt
      rw [← ih hle]
      have := (mono_all m').2.2 app ob text seen (by rw [ih hle]; exact hnt)
      rw [this, ih hle]
    · have heq : m = m' + 1 := Nat.le_antisymm h hge
      subst heq
      rfl

theorem propFinish_mono {m : Nat} {app : ClientApp} {ob : Option PanelButton}
    {il : Bool} {os : Option (List SetKey)} {raw : Run (Option PropVal)}
    (hnt : propFinish m app ob il os raw ≠ .timeout) :
    propFinish (m + 1) app ob il os raw = propFinish m app ob il os raw := by
  cases raw with
  | timeout => simp [propFinish] at hnt
  | thrown => rfl
  | ret v =>
    match v with
    | none => rfl
    | some (.vNum n) => rfl
    | some (.vBool b) => rfl
    | some (.vObj i) => rfl
    | some (.vStr s) =>
      simp only [propFinish] at hnt ⊢
      by_cases hil : il
      · simp only [if_pos hil]
      · simp only [if_neg hil] at hnt ⊢
        cases he : expandF m app ob s (os.getD [.str ""]) with
        | timeout => rw [he] at hnt; simp at hnt
        | thrown =>
          rw [expandF_mono_le (Nat.le_succ m) (by rw [he]; simp), he]
        | ret t =>
          rw [expandF_mono_le (Nat.le_succ m) (by rw [he]; simp), he]

theorem lookupProp_mono_succ : ∀ m : Nat, ∀ {app : ClientApp}
    {ob : Option PanelButton} {key : String} {il : Bool} {os : Option (List SetKey)},
    lookupProp m app ob key il os ≠ .timeout →
    lookupProp (m + 1) app ob key il os = lookupProp m app ob key il os := by
  intro m
  induction m with
  | zero =>
    intro app ob key il os hnt
    exact absurd rfl hnt
  | succ m ih =>
    intro app ob key il os hnt
    cases ob with
    | none => rw [lookupProp_none, lookupProp_none]
    | some b =>
      rw [lookupProp_some] at hnt
      rw [lookupProp_some (m := m + 1), lookupProp_some (m := m)]
      cases hov : getOwn b key with
      | some v =>
        rw [hov] at hnt
        exact propFinish_mono hnt
      | none =>
        rw [hov] at hnt
        cases hp : lookupProp m app (getParent app b) key true os with
        | timeout => rw [hp] at hnt; simp [propFinish] at hnt
        | thrown =>
          rw [hp] at hnt
          rw [ih (by rw [hp]; simp), hp]
          exact propFinish_mono hnt
        | ret v =>
          rw [hp] at hnt
          rw [ih (by rw [hp]; simp), hp]
          exact propFinish_mono hnt

theorem lookupProp_mono_le {m m' : Nat} (h : m ≤ m') {app : ClientApp}
    {ob : Option PanelButton} {key : String} {il : Bool} {os : Option (List SetKey)}
    (hnt : lookupProp m app ob key il os ≠ .timeout) :
    lookupProp m' app ob key il os = lookupProp m app ob key il os := by
  induction m' with
  | zero =>
    have hm0 : m = 0 := Nat.le_zero.mp h
    subst hm0
    rfl
  | succ m' ih =>
    rcases Nat.lt_or_ge m (m' + 1) with hlt | hge
    · have hle : m ≤ m' := Nat.lt_succ_iff.mp hlt
      rw [← ih hle]
      have := lookupProp_mono_succ m' (by rw [ih hle]; exact hnt)
      rw [this, ih hle]
    · have heq : m = m' + 1 := Nat.le_antisymm h hge
      subst heq
      rfl

/-! ## Run semantics

`EvalSet`/`EvalProp`/`EvalExpand` state that the JS computation has the given
(deterministic) outcome: every sufficiently large fuel yields it.  `.thrown`
is a real JS exception; `.ret` is a normal return; a computation that never
stabilises (e.g. an infinite `is` recursion) satisfies no `Eval`. -/

def EvalSet (app : ClientApp) (ob : Option PanelButton) (sk : SetKey) (il : Bool)
    (os : Option (List SetKey)) (r : Run (Option String)) : Prop :=
  r ≠ .timeout ∧ ∃ n, ∀ m, n ≤ m → lookupSet m app ob sk il os = r

def EvalProp (app : ClientApp) (ob : Option PanelButton) (key : String) (il : Bool)
    (os : Option (List SetKey)) (r : Run (Option PropVal)) : Prop :=
  r ≠ .timeout ∧ ∃ n, ∀ m, n ≤ m → lookupProp m app ob key il os = r

def EvalExpand (app : ClientApp) (ob : Option PanelButton) (text : String)
    (seen : List SetKey) (r : Run String) : Prop :=
  r ≠ .timeout ∧ ∃ n, ∀ m, n ≤ m → expandF m app ob text seen = r

theorem evalSet_of_fuel {n : Nat} {app : ClientApp} {ob : Option PanelButton}
    {sk : SetKey} {il : Bool} {os : Option (List SetKey)} {r : Run (Option String)}
    (h : lookupSet n app ob sk il os = r) (hnt : r ≠ .timeout) :
    EvalSet app ob sk il os r :=
  ⟨hnt, n, fun m hm => by rw [lookupSet_mono_le hm (by rw [h]; exact hnt), h]⟩

theorem evalProp_of_fuel {n : Nat} {app : ClientApp} {ob : Option PanelButton}
    {key : String} {il : Bool} {os : Option (List SetKey)} {r : Run (Option PropVal)}
    (h : lookupProp n app ob key il os = r) (hnt : r ≠ .timeout) :
    EvalProp app ob key il os r :=
  ⟨hnt, n, fun m hm => by rw [lookupProp_mono_le hm (by rw [h]; exact hnt), h]⟩

theorem evalExpand_of_fuel {n : Nat} {app : ClientApp} {ob : Option PanelButton}
    {text : String} {seen : List SetKey} {r : Run String}
    (h : expandF n app ob text seen = r) (hnt : r ≠ .timeout) :
    EvalExpand app ob text seen r :=
  ⟨hnt, n, fun m hm => by rw [expandF_mono_le hm (by rw [h]; exact hnt), h]⟩

theorem evalSet_unique {app : ClientApp} {ob : Option PanelButton} {sk : SetKey}
    {il : Bool} {os : Option (List SetKey)} {r r' : Run (Option String)}
    (h : EvalSet app ob sk il os r) (h' : EvalSet app ob sk il os r') : r = r' := by
  obtain ⟨_, n, hn⟩ := h
  obtain ⟨_, n', hn'⟩ := h'
  rw [← hn (max n n') (Nat.le_max_left _ _), hn' (max n n') (Nat.le_max_right _ _)]

theorem evalProp_unique {app : ClientApp} {ob : Option PanelButton} {key : String}
    {il : Bool} {os : Option (List SetKey)} {r r' : Run (Option PropVal)}
    (h : EvalProp app ob key il os r) (h' : EvalProp app ob key il os r') : r = r' := by
  obtain ⟨_, n, hn⟩ := h
  obtain ⟨_, n', hn'⟩ := h'
  rw [← hn (max n n') (Nat.le_max_left _ _), hn' (max n n') (Nat.le_max_right _ _)]

theorem evalExpand_unique {app : ClientApp} {ob : Option PanelButton} {text : String}
    {seen : List SetKey} {r r' : Run String}
    (h : EvalExpand app ob text seen r) (h' : EvalExpand app ob text seen r') : r = r' := by
  obtain ⟨_, n, hn⟩ := h
  obtain ⟨_, n', hn'⟩ := h'
  rw [← hn (max n n') (Nat.le_max_left _ _), hn' (max n n') (Nat.le_max_right _ _)]
/-! ## Word strings and concrete token texts -/

/-- A non-empty string of `\w` characters (a valid transform name or key). -/
def WordString (s : String) : Prop := s.data ≠ [] ∧ ∀ c ∈ s.data, isWordChar c

instance (s : String) : Decidable (WordString s) := by
  unfold WordString
  infer_instance

theorem expectChar_cons_pos {c x : Char} {xs : List Char} (h : x = c) :
    expectChar c (x :: xs) = some xs := by
  simp [expectChar, h]

theorem expectChar_cons_neg {c x : Char} {xs : List Char} (h : ¬x = c) :
    expectChar c (x :: xs) = none := by
  simp [expectChar, h]

theorem takeWhile_marker {p : Char → Bool} {l1 l2 : List Char}
    (h1 : ∀ c ∈ l1, p c = true)
    (h2 : ∀ x, l2.head? = some x → p x = false) :
    (l1 ++ l2).takeWhile p = l1 := by
  induction l1 with
  | nil =>
    cases l2 with
    | nil => rfl
    | cons x xs =>
      have hx : p x = false := h2 x rfl
      simp [List.takeWhile_cons, hx]
  | cons c l1 ih =>
    have hc : p c = true := h1 c (by simp)
    simp only [List.cons_append, List.takeWhile_cons, hc, if_true]
    rw [ih (fun c hc2 => h1 c (by simp [hc2]))]

theorem dropWhile_marker {p : Char → Bool} {l1 l2 : List Char}
    (h1 : ∀ c ∈ l1, p c = true)
    (h2 : ∀ x, l2.head? = some x → p x = false) :
    (l1 ++ l2).dropWhile p = l2 := by
  induction l1 with
  | nil =>
    cases l2 with
    | nil => rfl
    | cons x xs =>
      have hx : p x = false := h2 x rfl
      simp [List.dropWhile_cons, hx]
  | cons c l1 ih =>
    have hc : p c = true := h1 c (by simp)
    simp only [List.cons_append, List.dropWhile_cons, hc, if_true]
    exact ih (fun c hc2 => h1 c (by simp [hc2]))

theorem word1_marker {w l2 : List Char}
    (hw : w ≠ []) (h1 : ∀ c ∈ w, isWordChar c)
    (h2 : ∀ x, l2.head? = some x → isWordChar x = false) :
    word1 (w ++ l2) = some (w, l2) := by
  unfold word1
  rw [takeWhile_marker h1 h2, dropWhile_marker h1 h2]
  cases w with
  | nil => exact absurd rfl hw
  | cons c w' => rfl

/-- The body text `(fn:)?key` of a token. -/
def tokenBodyText (fn : Option String) (keyText : String) : String :=
  match fn with
  | none => keyText
  | some f => f ++ ":" ++ keyText

/-- The source text `$ \\* { body }` of a token with the given escape count. -/
def tokenText (slashes : Nat) (fn : Option String) (keyText : String) : String :=
  "$" ++ String.mk (List.replicate slashes '\\') ++ "\x7b" ++ tokenBodyText fn keyText ++ "\x7d"

theorem tokenText_data (n : Nat) (fn : Option String) (keyText : String) :
    (tokenText n fn keyText).data =
      '$' :: (List.replicate n '\\' ++ '{' :: ((tokenBodyText fn keyText).data ++ '}' :: [])) := by
  simp [tokenText, String.data_append]

theorem matchAfterDollar_token (n : Nat) (fn : Option String) (keyText : String)
    (rest : List Char)
    (hfn : ∀ f, fn = some f → WordString f) (hk : WordString keyText) :
    matchAfterDollar (List.replicate n '\\' ++ '{' :: ((tokenBodyText fn keyText).data ++ '}' :: rest)) =
      some ⟨n, fn, keyText, tokenBodyText fn keyText, rest⟩ := by
  have hslash : ∀ c ∈ List.replicate n '\\', (fun c => decide (c = '\\')) c = true := by
    intro c hc
    simp [List.eq_of_mem_replicate hc]
  have hbrace : ∀ x : Char, ('{' :: ((tokenBodyText fn keyText).data ++ '}' :: rest)).head? = some x →
      (fun c => decide (c = '\\')) x = false := by
    intro x hx
    simp only [List.head?_cons, Option.some.injEq] at hx
    subst hx
    decide
  unfold matchAfterDollar
  rw [dropWhile_marker hslash hbrace, takeWhile_marker hslash hbrace,
    expectChar_cons_pos rfl]
  simp only [Option.some_bind, List.length_replicate]
  cases fn with
  | none =>
    simp only [tokenBodyText]
    rw [word1_marker hk.1 hk.2 (by intro x hx; simp at hx; subst hx; decide)]
    simp only [Option.some_bind]
    rw [expectChar_cons_pos rfl]
  | some f =>
    have hf := hfn f rfl
    simp only [tokenBodyText]
    have hdata : (f ++ ":" ++ keyText).data ++ '}' :: rest =
        f.data ++ (':' :: (keyText.data ++ '}' :: rest)) := by
      simp only [String.data_append]
      simp
    rw [hdata]
    rw [word1_marker hf.1 hf.2 (by intro x hx; simp at hx; subst hx; decide)]
    simp only [Option.some_bind]
    rw [expectChar_cons_neg (by decide), expectChar_cons_pos rfl]
    simp only [Option.some_bind]
    rw [word1_marker hk.1 hk.2 (by intro x hx; simp at hx; subst hx; decide)]
    simp only [Option.some_bind]
    rw [expectChar_cons_pos rfl]
    simp [TokenMatch.mk.injEq, String.ext_iff, String.data_append]

theorem runPrepend_ret_empty {p : String} : runPrepend p (.ret "") = .ret p := by
  simp [runPrepend]

theorem matchedText_token (n : Nat) (fn : Option String) (keyText : String)
    (rest : List Char) :
    matchedText ⟨n, fn, keyText, tokenBodyText fn keyText, rest⟩ =
      tokenText n fn keyText := rfl

theorem peeledText_token (n : Nat) (fn : Option String) (keyText : String)
    (rest : List Char) :
    peeledText ⟨n, fn, keyText, tokenBodyText fn keyText, rest⟩ =
      tokenText (n - 1) fn keyText := rfl

/-- One expansion pass over an escaped token peels exactly one backslash and
keeps the body (transform prefix included) literal. -/
theorem expandF_token_escaped (fuel : Nat) (app : ClientApp) (ob : Option PanelButton)
    (seen : List SetKey) (n : Nat) (fn : Option String) (keyText : String)
    (hn : 0 < n) (hfn : ∀ f, fn = some f → WordString f) (hk : WordString keyText) :
    expandF (fuel + 3) app ob (tokenText n fn keyText) seen =
      .ret (tokenText (n - 1) fn keyText) := by
  show scanF (fuel + 2) app ob (tokenText n fn keyText).data seen = _
  rw [tokenText_data]
  rw [scanF_cons_escaped (matchAfterDollar_token n fn keyText [] hfn hk) (by simpa using hn)]
  rw [scanF_nil, peeledText_token, runPrepend_ret_empty]

/-- A non-escaped token whose key is already in the visited set is emitted
verbatim. -/
theorem expandF_token_seen (fuel : Nat) (app : ClientApp) (ob : Option PanelButton)
    (seen : List SetKey) (fn : Option String) (keyText : String)
    (hfn : ∀ f, fn = some f → WordString f) (hk : WordString keyText)
    (hmem : parseTokenKey keyText ∈ seen) :
    expandF (fuel + 3) app ob (tokenText 0 fn keyText) seen =
      .ret (tokenText 0 fn keyText) := by
  show scanF (fuel + 2) app ob (tokenText 0 fn keyText).data seen = _
  rw [tokenText_data]
  rw [scanF_cons_seen (matchAfterDollar_token 0 fn keyText [] hfn hk) rfl hmem]
  rw [scanF_nil, matchedText_token, runPrepend_ret_empty]

/-- A non-escaped token with an unvisited key resolves the key through a
non-internal set lookup with the key added to the visited set, then applies
the transform/fallback logic of the replacement callback. -/
theorem expandF_token_unseen (fuel : Nat) (app : ClientApp) (ob : Option PanelButton)
    (seen : List SetKey) (fn : Option String) (keyText : String)
    (hfn : ∀ f, fn = some f → WordString f) (hk : WordString keyText)
    (hmem : ¬parseTokenKey keyText ∈ seen) :
    expandF (fuel + 3) app ob (tokenText 0 fn keyText) seen =
      match lookupSet (fuel + 1) app ob (parseTokenKey keyText) false
          (some (parseTokenKey keyText :: seen)) with
      | .timeout => .timeout
      | .thrown => .thrown
      | .ret value => .ret (applyTransform fn value (tokenText 0 fn keyText)) := by
  show scanF (fuel + 2) app ob (tokenText 0 fn keyText).data seen = _
  rw [tokenText_data]
  rw [scanF_cons_tok (matchAfterDollar_token 0 fn keyText [] hfn hk) rfl hmem]
  simp only [matchedText_token]
  cases lookupSet (fuel + 1) app ob (parseTokenKey keyText) false
      (some (parseTokenKey keyText :: seen)) with
  | timeout => rfl
  | thrown => rfl
  | ret value => simp [scanF_nil, runPrepend_ret_empty]

/-- Strings without `$` are expanded to themselves (no token can match). -/
theorem scanF_nodollar : ∀ (cs : List Char), '$' ∉ cs → ∀ (k : Nat)
    (app : ClientApp) (ob : Option PanelButton) (seen : List SetKey),
    scanF (cs.length + 1 + k) app ob cs seen = .ret (String.mk cs) := by
  intro cs
  induction cs with
  | nil =>
    intro _ k app ob seen
    rw [show ([] : List Char).length + 1 + k = k + 1 by simp only [List.length_nil]; omega]
    exact scanF_nil
  | cons c cs ih =>
    intro hnd k app ob seen
    have hc : ¬c = '$' := fun h => hnd (by simp [h])
    have hstep : (c :: cs).length + 1 + k = (cs.length + 1 + k) + 1 := by
      simp [List.length_cons]
      omega
    rw [hstep, scanF_cons_nondollar hc,
      ih (fun h => hnd (by simp [h])) k app ob seen]
    simp [runPrepend]
    exact String.ext rfl

theorem expandF_nodollar {s : String} (hnd : '$' ∉ s.data) (k : Nat)
    {app : ClientApp} {ob : Option PanelButton} {seen : List SetKey} :
    expandF (s.data.length + 2 + k) app ob s seen = .ret s := by
  rw [show s.data.length + 2 + k = (s.data.length + 1 + k) + 1 by omega, expandF]
  rw [scanF_nodollar s.data hnd k]

/-! ## Claim C1 -/

/-- The app shim of the repository's own unit tests (`makeApp({})` in the
test file): `templates` is an empty map and — like the `ClientApp` type of
types.ts and the app literal built in index.js — it has no `setGlobals`. -/
def c1App : ClientApp := ⟨some [], none⟩

/-- The button of the repo's test `should handle simple set and set-list
lookup`. -/
def c1Button : PanelButton :=
  { text := "s1", set := some [("a", "s1-a")], setList := some ["x", "y", "z"] }

/-- C1: the claim says that a non-internal lookup of a set key absent from
the button, its `is` chain and the global fallback map consults the fallback
map as the final tier and returns null without throwing.  On the code this
is false: no app of this repository has a `setGlobals` field (it is absent
from `ClientApp` and from every constructed app, including the repo's own
test shim), so the final tier `app.setGlobals[setKey]` throws a `TypeError`.
At the repo's own test input (`lookup(app, button, null, 'z')`, expected
`null` by the test) the run throws. -/
theorem C1_fallback_tier_throws :
    lookupSet 3 c1App (some c1Button) (.str "z") false none = .thrown ∧
    EvalSet c1App (some c1Button) (.str "z") false none .thrown ∧
    lookupSet 3 c1App (some c1Button) (.num 4) false none = .thrown := by
  refine ⟨by decide, evalSet_of_fuel (n := 3) (by decide) (by decide), by decide⟩

/-! ## Claim C3 -/

/-- Template with a truthy `showOutput`. -/
def c3T : PanelButton := { text := "T", props := [("showOutput", .vBool true)] }

/-- Button with own `showOutput: false` (falsy but defined) inheriting c3T. -/
def c3Button : PanelButton :=
  { text := "B", is := some "T", props := [("showOutput", .vBool false)] }

def c3App : ClientApp := ⟨some [("T", c3T)], some []⟩

/-- C3 counterexample: the claim says a falsy own property value (`false`,
`0`, `""`) is ignored and the parent's value returned.  The code uses `??`,
which only falls through on `null`/`undefined`: a button with
`showOutput: false` inheriting from a template with `showOutput: true`
yields `false`, not the parent's `true`. -/
theorem C3_falsy_own_value_not_skipped :
    lookupProp 3 c3App (some c3Button) "showOutput" false none =
      .ret (some (.vBool false)) ∧
    lookupProp 3 c3App (some c3T) "showOutput" false none =
      .ret (some (.vBool true)) ∧
    PropVal.vBool false ≠ PropVal.vBool true := by
  refine ⟨by decide, by decide, by decide⟩

/-- C3 (amended): property mode falls through to the `is` parent exactly
when the own value is `null`/`undefined`; a defined falsy own value
(`false`, `0`, `""`) is kept.  A defined non-string own value is returned
as-is whatever the parent holds, a defined own string is returned raw in
internal-lookup mode, and the parent is consulted exactly when the own value
is undefined. -/
theorem C3_nullish_not_falsy_gates_inheritance :
    (∀ (fuel : Nat) (app : ClientApp) (b : PanelButton) (key : String)
       (il : Bool) (os : Option (List SetKey)) (v : PropVal),
       getOwn b key = some v → (∀ s, v ≠ .vStr s) →
       lookupProp (fuel + 1) app (some b) key il os = .ret (some v)) ∧
    (∀ (fuel : Nat) (app : ClientApp) (b : PanelButton) (key : String)
       (os : Option (List SetKey)) (s : String),
       getOwn b key = some (.vStr s) →
       lookupProp (fuel + 1) app (some b) key true os = .ret (some (.vStr s))) ∧
    (∀ (fuel : Nat) (app : ClientApp) (b : PanelButton) (key : String)
       (il : Bool) (os : Option (List SetKey)),
       getOwn b key = none →
       lookupProp (fuel + 1) app (some b) key il os =
         propFinish fuel app (some b) il os
           (lookupProp fuel app (getParent app b) key true os)) := by
  refine ⟨?_, ?_, ?_⟩
  · intro fuel app b key il os v hov hns
    rw [lookupProp_some, hov]
    cases v with
    | vStr s => exact absurd rfl (hns s)
    | vNum n => rfl
    | vBool bb => rfl
    | vObj i => rfl
  · intro fuel app b key os s hov
    rw [lookupProp_some, hov]
    simp [propFinish]
  · intro fuel app b key il os hov
    rw [lookupProp_some, hov]

/-- Witness for C3's amended theorem at the concrete counterexample input. -/
theorem C3_nullish_witness :
    lookupProp 3 c3App (some c3Button) "showOutput" false none =
      .ret (some (.vBool false)) ∧
    getOwn c3Button "showOutput" = some (.vBool false) :=
  ⟨C3_nullish_not_falsy_gates_inheritance.1 2 c3App c3Button "showOutput" false none
      (.vBool false) (by decide) (fun s h => by cases h),
   by decide⟩

/-! ## Claim C2 -/

def c2App : ClientApp := ⟨some [], some []⟩

/-- Button whose set maps `k` to the empty string. -/
def c2Button : PanelButton := { text := "", set := some [("k", "")] }

/-- C2 counterexample: the claim says a falsy resolved value — explicitly
including the empty string — makes `expand` emit the raw token text, never
the empty string.  The code's final fallback is `value ?? match`, and `??`
does not fall through on `""`: with `set = {k: ""}`, expanding `"${k}"`
yields `""`, deleting the token instead of preserving it. -/
theorem C2_empty_value_deletes_token :
    expandF 9 c2App (some c2Button) "${k}" [] = .ret "" ∧
    EvalExpand c2App (some c2Button) "${k}" [] (.ret "") ∧
    ("" : String) ≠ "${k}" := by
  refine ⟨by decide, evalExpand_of_fuel (n := 9) (by decide) (by decide), by decide⟩

/-- C2 (amended): for a non-escaped token whose key is not in the visited
set, if the non-internal lookup of the key returns `null` the raw matched
token text is emitted unchanged (and no exception is raised by the emission);
if the lookup returns the empty string, the empty string is emitted (the
token is deleted).  A lookup that itself throws — possible only through the
undefined `setGlobals` tier, see C1 — propagates instead. -/
theorem C2_falsy_token_emission :
    ∀ (fuel : Nat) (app : ClientApp) (ob : Option PanelButton) (seen : List SetKey)
      (fn : Option String) (keyText : String),
      (∀ f, fn = some f → WordString f) → WordString keyText →
      ¬parseTokenKey keyText ∈ seen →
      (lookupSet (fuel + 1) app ob (parseTokenKey keyText) false
          (some (parseTokenKey keyText :: seen)) = .ret none →
        expandF (fuel + 3) app ob (tokenText 0 fn keyText) seen =
          .ret (tokenText 0 fn keyText)) ∧
      (lookupSet (fuel + 1) app ob (parseTokenKey keyText) false
          (some (parseTokenKey keyText :: seen)) = .ret (some "") →
        expandF (fuel + 3) app ob (tokenText 0 fn keyText) seen = .ret "") := by
  intro fuel app ob seen fn keyText hfn hk hmem
  constructor
  · intro hlk
    rw [expandF_token_unseen fuel app ob seen fn keyText hfn hk hmem, hlk]
    simp [applyTransform]
  · intro hlk
    rw [expandF_token_unseen fuel app ob seen fn keyText hfn hk hmem, hlk]
    simp [applyTransform]

/-- Witness for C2's amended theorem: a missing key (`lookup` returns null
because the defined-but-empty fallback map lacks it) preserves the token
text, and an empty-string value deletes it. -/
theorem C2_falsy_token_emission_witness :
    (expandF 4 c2App (some (PanelButton.mk "" none none none [])) (tokenText 0 none "k") [] =
      .ret (tokenText 0 none "k")) ∧
    (expandF 5 c2App (some c2Button) (tokenText 0 none "k") [] = .ret "") := by
  constructor
  · exact (C2_falsy_token_emission 1 c2App (some (PanelButton.mk "" none none none []))
      [] none "k" (fun f h => by cases h) (by decide) (by decide)).1 (by decide)
  · exact (C2_falsy_token_emission 2 c2App (some c2Button)
      [] none "k" (fun f h => by cases h) (by decide) (by decide)).2 (by decide)

/-! ## Claim C5 -/

def c5App : ClientApp := ⟨some [], none⟩

/-- The self-referential button of the repo's recursion test:
`set = {x: "x${x}x"}`. -/
def c5Button : PanelButton := { text := "", set := some [("x", "x${x}x")] }

/-- C5: a non-escaped token whose key is already in the visited set is
emitted verbatim (at any fuel, for any app/button); in particular, with
`set = {x: "x${x}x"}`, the non-internal lookup of set key `x` terminates and
returns `"x${x}x"` with the inner `${x}` left unexpanded, because the
top-level key seeds the visited set. -/
theorem C5_visited_token_verbatim :
    (∀ (fuel : Nat) (app : ClientApp) (ob : Option PanelButton) (seen : List SetKey)
       (fn : Option String) (keyText : String),
       (∀ f, fn = some f → WordString f) → WordString keyText →
       parseTokenKey keyText ∈ seen →
       expandF (fuel + 3) app ob (tokenText 0 fn keyText) seen =
         .ret (tokenText 0 fn keyText)) ∧
    lookupSet 9 c5App (some c5Button) (.str "x") false none =
      .ret (some "x${x}x") ∧
    EvalSet c5App (some c5Button) (.str "x") false none (.ret (some "x${x}x")) := by
  refine ⟨?_, by decide, evalSet_of_fuel (n := 9) (by decide) (by decide)⟩
  intro fuel app ob seen fn keyText hfn hk hmem
  exact expandF_token_seen fuel app ob seen fn keyText hfn hk hmem

/-- Witness for C5's general conjunct: the inner `${x}` of the concrete
self-reference is left verbatim because `x` is in the visited set. -/
theorem C5_visited_token_verbatim_witness :
    expandF 3 c5App (some c5Button) (tokenText 0 none "x") [.str "x"] =
      .ret (tokenText 0 none "x") :=
  C5_visited_token_verbatim.1 0 c5App (some c5Button) [.str "x"] none "x"
    (fun f h => by cases h) (by decide) (by decide)

/-! ## Claim C8 -/

/-- One full expansion pass (with fuel ample for the input), as a
string-to-string function for iteration. -/
def expandPass (app : ClientApp) (ob : Option PanelButton) (seen : List SetKey)
    (t : String) : String :=
  match expandF (t.data.length + 3) app ob t seen with
  | .ret s => s
  | _ => t

theorem expandPass_token_escaped {app : ClientApp} {ob : Option PanelButton}
    {seen : List SetKey} {i : Nat} {fn : Option String} {keyText : String}
    (hfn : ∀ f, fn = some f → WordString f) (hk : WordString keyText) :
    expandPass app ob seen (tokenText (i + 1) fn keyText) = tokenText i fn keyText := by
  unfold expandPass
  rw [expandF_token_escaped ((tokenText (i + 1) fn keyText).data.length) app ob seen
    (i + 1) fn keyText (Nat.succ_pos i) hfn hk]
  simp

/-- C8: an escaped token is not expanded — one pass removes exactly one
backslash and preserves the bracketed body (transform prefix included)
literally, at any fuel; `n` passes fully un-escape an `n`-times-escaped
token.  Concretely, one pass sends `"$\{z}"` to `"${z}"` and `"$\\{0}"` to
`"$\{0}"`. -/
theorem C8_escape_peeling :
    (∀ (fuel : Nat) (app : ClientApp) (ob : Option PanelButton) (seen : List SetKey)
       (n : Nat) (fn : Option String) (keyText : String),
       0 < n → (∀ f, fn = some f → WordString f) → WordString keyText →
       expandF (fuel + 3) app ob (tokenText n fn keyText) seen =
         .ret (tokenText (n - 1) fn keyText)) ∧
    (∀ (app : ClientApp) (ob : Option PanelButton) (seen : List SetKey)
       (n : Nat) (fn : Option String) (keyText : String),
       (∀ f, fn = some f → WordString f) → WordString keyText →
       (expandPass app ob seen)^[n] (tokenText n fn keyText) =
         tokenText 0 fn keyText) ∧
    expandF 9 ⟨none, none⟩ none "$\\{z}" [] = .ret "${z}" ∧
    expandF 9 ⟨none, none⟩ none "$\\\\{0}" [] = .ret "$\\{0}" := by
  refine ⟨?_, ?_, by decide, by decide⟩
  · intro fuel app ob seen n fn keyText hn hfn hk
    exact expandF_token_escaped fuel app ob seen n fn keyText hn hfn hk
  · intro app ob seen n fn keyText hfn hk
    induction n with
    | zero => rfl
    | succ n ih =>
      rw [Function.iterate_succ_apply, expandPass_token_escaped hfn hk, ih]

/-- Witness for C8: the two spec examples through the general conjuncts —
`tokenText` at the concrete arguments is exactly the spec's escaped strings,
and two passes fully un-escape the twice-escaped `${0}`. -/
theorem C8_escape_peeling_witness :
    expandF 3 ⟨none, none⟩ none (tokenText 1 none "z") [] =
      .ret (tokenText 0 none "z") ∧
    (expandPass ⟨none, none⟩ none [])^[2] (tokenText 2 none "0") =
      tokenText 0 none "0" ∧
    tokenText 1 none "z" = "$\\{z}" ∧
    tokenText 2 none "0" = "$\\\\{0}" := by
  refine ⟨?_, ?_, by decide, by decide⟩
  · exact C8_escape_peeling.1 0 ⟨none, none⟩ none [] 1 none "z"
      (by decide) (fun f h => by cases h) (by decide)
  · exact C8_escape_peeling.2.1 ⟨none, none⟩ none [] 2 none "0"
      (fun f h => by cases h) (by decide)

/-! ## Claim C9 -/

/-- Erase a button's `setList` (used to show string-key lookups never read
`setList`). -/
def clearSL (b : PanelButton) : PanelButton := { b with setList := none }

/-- Erase every `setList` in an app's template map. -/
def clearSLApp (app : ClientApp) : ClientApp :=
  { app with templates := app.templates.map (List.map (fun p => (p.1, clearSL p.2))) }

theorem assocFind_map_value {α β : Type} (g : α → β) :
    ∀ (ts : List (String × α)) (k : String),
    assocFind (ts.map (fun p => (p.1, g p.2))) k = (assocFind ts k).map g := by
  intro ts k
  induction ts with
  | nil => rfl
  | cons p ts ih =>
    simp only [assocFind, List.map_cons, List.find?_cons] at ih ⊢
    by_cases hk : (p.1 == k) = true
    · simp [hk]
    · simp only [Bool.not_eq_true] at hk
      simp only [hk, cond_false]
      exact ih

theorem getParent_clearSL (app : ClientApp) (b : PanelButton) :
    getParent (clearSLApp app) (clearSL b) = (getParent app b).map clearSL := by
  unfold getParent clearSL clearSLApp
  cases b.is with
  | none => rfl
  | some nm =>
    by_cases hnm : nm = ""
    · simp [hnm]
    · simp only [hnm, if_false]
      cases app.templates with
      | none => rfl
      | some ts =>
        simp only [Option.map_some', Option.some_bind, Option.bind_some]
        exact assocFind_map_value clearSL ts nm

theorem setFinish_internal {m : Nat} {app : ClientApp} {ob : Option PanelButton}
    {sk : SetKey} {os : Option (List SetKey)} {r : Run (Option String)} :
    setFinish m app ob sk true os r = r := by
  cases r with
  | timeout => rfl
  | thrown => rfl
  | ret v => cases v <;> simp [setFinish]

/-- Internal string-key lookups read only `set` maps and the globals, never
any `setList`: erasing every `setList` leaves them unchanged. -/
theorem lookupSet_str_ignores_setList :
    ∀ (fuel : Nat) (app : ClientApp) (ob : Option PanelButton) (s : String)
      (os : Option (List SetKey)),
    lookupSet fuel (clearSLApp app) (ob.map clearSL) (.str s) true os =
      lookupSet fuel app ob (.str s) true os := by
  intro fuel
  induction fuel with
  | zero => intro app ob s os; rfl
  | succ fuel ih =>
    intro app ob s os
    cases ob with
    | none => rfl
    | some b =>
      simp only [Option.map_some']
      rw [lookupSet_some, lookupSet_some, setFinish_internal, setFinish_internal]
      have hown : ownSetVal (clearSL b) (.str s) = ownSetVal b (.str s) := rfl
      rw [hown]
      cases ownSetVal b (.str s) with
      | some v => rfl
      | none =>
        rw [getParent_clearSL]
        have hglob : (clearSLApp app).setGlobals = app.setGlobals := rfl
        rw [hglob]
        cases hp : getParent app b with
        | none => rw [ih app none s os]
        | some p => rw [ih app (some p) s os]

def c9App : ClientApp := ⟨none, some []⟩

/-- Button with both `set["0"]` and `setList[0]` defined, to separate the
two namespaces. -/
def c9Button : PanelButton :=
  { text := "", set := some [("0", "SET")], setList := some ["LIST"] }

/-- C9: a token body that `Number` parses as a (finite) number becomes a
numeric `setList` key with that value, any non-numeric body stays a string
`set` key, string keys never consult any `setList` (erasing all `setList`s
leaves internal string-key lookups unchanged), and `${0}` resolves via
`setList` index 0 — not via `set["0"]` — even when both are present. -/
theorem C9_numeric_setList_string_set :
    (∀ (s : String) (n : Nat), jsWordNumber s = some (.fin n) →
      parseTokenKey s = .num n) ∧
    (∀ s : String, jsWordNumber s = none → parseTokenKey s = .str s) ∧
    (∀ (b : PanelButton) (n : Nat),
      ownSetVal b (.num n) = b.setList.bind (fun l => l[n]?)) ∧
    (∀ (fuel : Nat) (app : ClientApp) (ob : Option PanelButton) (s : String)
       (os : Option (List SetKey)),
      lookupSet fuel (clearSLApp app) (ob.map clearSL) (.str s) true os =
        lookupSet fuel app ob (.str s) true os) ∧
    expandF 9 c9App (some c9Button) "${0}" [] = .ret "LIST" ∧
    EvalExpand c9App (some c9Button) "${0}" [] (.ret "LIST") := by
  refine ⟨?_, ?_, fun b n => rfl, lookupSet_str_ignores_setList, by decide,
    evalExpand_of_fuel (n := 9) (by decide) (by decide)⟩
  · intro s n h
    unfold parseTokenKey
    rw [h]
  · intro s h
    unfold parseTokenKey
    rw [h]

/-- Witness for C9's conditional conjuncts at concrete inputs: `"0"` parses
to the numeric key 0 and `"j"` stays a string key; erasing `setList`s leaves
the internal lookup of `"0"`-the-string-key unchanged. -/
theorem C9_numeric_setList_string_set_witness :
    parseTokenKey "0" = .num 0 ∧
    parseTokenKey "j" = .str "j" ∧
    lookupSet 4 (clearSLApp c9App) (Option.map clearSL (some c9Button)) (.str "0") true none =
      lookupSet 4 c9App (some c9Button) (.str "0") true none :=
  ⟨C9_numeric_setList_string_set.1 "0" 0 (by decide),
   C9_numeric_setList_string_set.2.1 "j" (by decide),
   C9_numeric_setList_string_set.2.2.2.1 4 c9App (some c9Button) "0" none⟩

/-! ## Claim C10 -/

def c10App : ClientApp := ⟨some [], none⟩

/-- Button exercising the transforms, from the repo's `simple expansions`
test: `command: "t: ${urlencode:y}"`, `set.y = "s s"`, `set.i` applies
`jsonString` to `set.j = "x\"y"`, and `set.u` uses an unknown transform. -/
def c10Button : PanelButton :=
  { text := "",
    props := [("command", .vStr "t: ${urlencode:y}")],
    set := some [("y", "s s"), ("i", "i: ${jsonString:j}"), ("j", "x\"y"),
                 ("u", "${nope:y}")] }

/-- C10: with a transform-function prefix and a truthy resolved value,
`urlencode` percent-encodes the value (`a"b` becomes `a%22b`, via
`encodeURIComponent`), `jsonString` renders it as a double-quoted
backslash-escaped JSON string literal (`x"y` becomes `"x\"y"`), and an
unknown transform name leaves the value unmodified; shown both for any
token/value via the general conjunct and on the repo's own test fixtures. -/
theorem C10_transform_functions :
    (∀ (fuel : Nat) (app : ClientApp) (ob : Option PanelButton) (seen : List SetKey)
       (keyText : String) (v : String),
       WordString keyText → ¬parseTokenKey keyText ∈ seen →
       lookupSet (fuel + 1) app ob (parseTokenKey keyText) false
         (some (parseTokenKey keyText :: seen)) = .ret (some v) → v ≠ "" →
       expandF (fuel + 3) app ob (tokenText 0 (some "urlencode") keyText) seen =
           .ret (uriEncode v) ∧
       expandF (fuel + 3) app ob (tokenText 0 (some "jsonString") keyText) seen =
           .ret (jsonStringLit v) ∧
       (∀ fname : String, WordString fname → fname ≠ "urlencode" →
         fname ≠ "jsonString" →
         expandF (fuel + 3) app ob (tokenText 0 (some fname) keyText) seen =
           .ret v)) ∧
    uriEncode "a\"b" = "a%22b" ∧
    jsonStringLit "x\"y" = "\"x\\\"y\"" ∧
    EvalProp c10App (some c10Button) "command" false none
      (.ret (some (.vStr "t: s%20s"))) ∧
    EvalSet c10App (some c10Button) (.str "i") false none
      (.ret (some "i: \"x\\\"y\"")) ∧
    EvalSet c10App (some c10Button) (.str "u") false none (.ret (some "s s")) := by
  refine ⟨?_, by decide, by decide,
    evalProp_of_fuel (n := 20) (by decide) (by decide),
    evalSet_of_fuel (n := 20) (by decide) (by decide),
    evalSet_of_fuel (n := 20) (by decide) (by decide)⟩
  intro fuel app ob seen keyText v hk hmem hlk hv
  refine ⟨?_, ?_, ?_⟩
  · rw [expandF_token_unseen fuel app ob seen (some "urlencode") keyText
      (fun f h => by cases h; decide) hk hmem, hlk]
    simp [applyTransform, hv]
  · rw [expandF_token_unseen fuel app ob seen (some "jsonString") keyText
      (fun f h => by cases h; decide) hk hmem, hlk]
    simp [applyTransform, hv]
  · intro fname hfw hfu hfj
    rw [expandF_token_unseen fuel app ob seen (some fname) keyText
      (fun f h => by cases h; exact hfw) hk hmem, hlk]
    simp [applyTransform, hv, hfu, hfj]

/-- Witness for C10's general conjunct on the repo's fixture: key `y`
resolves to the truthy `"s s"`, so `urlencode` yields `"s%20s"`,
`jsonString` yields a quoted literal, and the unknown `nope` passes the
value through. -/
theorem C10_transform_functions_witness :
    expandF 9 c10App (some c10Button) (tokenText 0 (some "urlencode") "y") [] =
      .ret "s%20s" ∧
    expandF 9 c10App (some c10Button) (tokenText 0 (some "nope") "y") [] =
      .ret "s s" := by
  have h := C10_transform_functions.1 6 c10App (some c10Button) [] "y" "s s"
    (by decide) (by decide) (by decide) (by decide)
  exact ⟨by rw [show (9 : Nat) = 6 + 3 by rfl]; rw [h.1]; decide,
    by rw [show (9 : Nat) = 6 + 3 by rfl]
       rw [h.2.2 "nope" (by decide) (by decide) (by decide)]⟩

/-! ## Claim C4 -/

theorem propFinish_internal {m : Nat} {app : ClientApp} {ob : Option PanelButton}
    {os : Option (List SetKey)} {r : Run (Option PropVal)} :
    propFinish m app ob true os r = r := by
  cases r with
  | timeout => rfl
  | thrown => rfl
  | ret v =>
    match v with
    | none => rfl
    | some (.vStr s) => simp [propFinish]
    | some (.vNum n) => rfl
    | some (.vBool b) => rfl
    | some (.vObj i) => rfl

/-- Template whose `proxyUrl` contains a token that resolves differently in
the two expansion contexts. -/
def c4T : PanelButton :=
  { text := "T", set := some [("k", "tval")], props := [("proxyUrl", .vStr "${k}")] }

/-- Button inheriting `proxyUrl` from c4T but overriding set key `k`. -/
def c4B : PanelButton := { text := "B", is := some "T", set := some [("k", "bval")] }

def c4App : ClientApp := ⟨some [("T", c4T)], some []⟩

/-- C4 counterexample: the claim says that when property `p` is undefined on
`B` and defined on `T = B.is`, `lookup(app, B, p)` equals
`lookup(app, T, p)`.  False: the inherited raw value is expanded in the
*requesting button's* context, so `B`'s own `set.k` wins inside the
inherited string and the two lookups differ. -/
theorem C4_inherited_lookup_differs :
    lookupProp 12 c4App (some c4B) "proxyUrl" false none =
      .ret (some (.vStr "bval")) ∧
    lookupProp 12 c4App (some c4T) "proxyUrl" false none =
      .ret (some (.vStr "tval")) ∧
    EvalProp c4App (some c4B) "proxyUrl" false none (.ret (some (.vStr "bval"))) ∧
    EvalProp c4App (some c4T) "proxyUrl" false none (.ret (some (.vStr "tval"))) ∧
    PropVal.vStr "bval" ≠ PropVal.vStr "tval" := by
  refine ⟨by decide, by decide,
    evalProp_of_fuel (n := 12) (by decide) (by decide),
    evalProp_of_fuel (n := 12) (by decide) (by decide), by decide⟩

/-- C4 (amended): with `B.is = T`, `p` undefined on `B` and defined on `T`
with value `v`, `lookup(app, B, p)` returns `T`'s raw value expanded in
`B`'s own context; whenever that value is not a string that undergoes
expansion — here: not a string, or a string without `$` — both lookups
evaluate to the same `v`, recovering the claim's equality. -/
theorem C4_inherited_lookup_agrees_without_tokens
    (app : ClientApp) (ts : List (String × PanelButton)) (b T : PanelButton)
    (key : String) (nm : String) (v : PropVal)
    (htpl : app.templates = some ts) (his : b.is = some nm) (hnm : nm ≠ "")
    (hfind : assocFind ts nm = some T)
    (hb : getOwn b key = none) (hT : getOwn T key = some v)
    (hv : ∀ s, v = .vStr s → '$' ∉ s.data) :
    EvalProp app (some b) key false none (.ret (some v)) ∧
    EvalProp app (some T) key false none (.ret (some v)) := by
  have hparent : getParent app b = some T := by
    unfold getParent
    rw [his]
    show (if nm = "" then none else app.templates.bind fun ts => assocFind ts nm) = some T
    rw [if_neg hnm, htpl]
    simpa using hfind
  cases v with
  | vStr s =>
    have hnd : '$' ∉ s.data := hv s rfl
    constructor
    · refine evalProp_of_fuel (n := s.data.length + 4) ?_ (by simp)
      rw [show s.data.length + 4 = (s.data.length + 3) + 1 by omega]
      rw [lookupProp_some, hb, hparent]
      rw [show s.data.length + 3 = (s.data.length + 2) + 1 by omega]
      rw [lookupProp_some, hT, propFinish_internal]
      simp only [propFinish, if_neg (by decide : ¬false = true)]
      rw [show s.data.length + 2 + 1 = s.data.length + 2 + 1 by rfl]
      rw [show (expandF (s.data.length + 2 + 1) app (some b) s
          ((none : Option (List SetKey)).getD [.str ""])) = .ret s from
        expandF_nodollar hnd 1]
    · refine evalProp_of_fuel (n := s.data.length + 3) ?_ (by simp)
      rw [show s.data.length + 3 = (s.data.length + 2) + 1 by omega]
      rw [lookupProp_some, hT]
      simp only [propFinish, if_neg (by decide : ¬false = true)]
      rw [show (expandF (s.data.length + 2) app (some T) s
          ((none : Option (List SetKey)).getD [.str ""])) = .ret s from
        expandF_nodollar hnd 0]
  | vNum n =>
    constructor
    · refine evalProp_of_fuel (n := 3) ?_ (by simp)
      rw [lookupProp_some, hb, hparent, lookupProp_some, hT, propFinish_internal]
      rfl
    · refine evalProp_of_fuel (n := 1) ?_ (by simp)
      rw [lookupProp_some, hT]
      rfl
  | vBool bb =>
    constructor
    · refine evalProp_of_fuel (n := 3) ?_ (by simp)
      rw [lookupProp_some, hb, hparent, lookupProp_some, hT, propFinish_internal]
      rfl
    · refine evalProp_of_fuel (n := 1) ?_ (by simp)
      rw [lookupProp_some, hT]
      rfl
  | vObj i =>
    constructor
    · refine evalProp_of_fuel (n := 3) ?_ (by simp)
      rw [lookupProp_some, hb, hparent, lookupProp_some, hT, propFinish_internal]
      rfl
    · refine evalProp_of_fuel (n := 1) ?_ (by simp)
      rw [lookupProp_some, hT]
      rfl

/-- Witness for C4's amended theorem: a token-free inherited `command`
string gives equal results on button and template. -/
theorem C4_inherited_lookup_agrees_witness :
    EvalProp ⟨some [("T", PanelButton.mk "T" none none none [("command", .vStr "go")])], some []⟩
      (some (PanelButton.mk "B" (some "T") none none [])) "command" false none
      (.ret (some (.vStr "go"))) ∧
    EvalProp ⟨some [("T", PanelButton.mk "T" none none none [("command", .vStr "go")])], some []⟩
      (some (PanelButton.mk "T" none none none [("command", .vStr "go")])) "command" false none
      (.ret (some (.vStr "go"))) :=
  C4_inherited_lookup_agrees_without_tokens
    ⟨some [("T", PanelButton.mk "T" none none none [("command", .vStr "go")])], some []⟩
    [("T", PanelButton.mk "T" none none none [("command", .vStr "go")])]
    (PanelButton.mk "B" (some "T") none none [])
    (PanelButton.mk "T" none none none [("command", .vStr "go")])
    "command" "T" (.vStr "go") rfl rfl (by decide) (by decide) (by decide) (by decide)
    (fun s h => by cases h; decide)

/-! ## Claim C7 -/

/-- A witness that the template graph reachable through `getParent` is
acyclic: some rank strictly decreases along every `is` hop. -/
def RankOk (app : ClientApp) (rk : PanelButton → Nat) : Prop :=
  ∀ b p, getParent app b = some p → rk p < rk b

/-- The spec's set-key precedence, written from §3 of the spec: own
`set[key]` → own `setList[index]` → parent's `set`/`setList` recursively →
global fallback map → null.  `d` bounds the chain depth (ample `d` never
reaches 0 on an acyclic chain). -/
def specSetRaw : Nat → ClientApp → Option PanelButton → SetKey → Option String
  | _, app, none, sk => assocFind (app.setGlobals.getD []) (setKeyPropName sk)
  | 0, _, some _, _ => none
  | d + 1, app, some b, sk =>
    match ownSetVal b sk with
    | some v => some v
    | none => specSetRaw d app (getParent app b) sk

theorem specSetRaw_none {d : Nat} {app : ClientApp} {sk : SetKey} :
    specSetRaw d app none sk =
      assocFind (app.setGlobals.getD []) (setKeyPropName sk) := by
  cases d <;> rfl

theorem specSetRaw_succ {d : Nat} {app : ClientApp} {b : PanelButton} {sk : SetKey} :
    specSetRaw (d + 1) app (some b) sk =
      match ownSetVal b sk with
      | some v => some v
      | none => specSetRaw d app (getParent app b) sk := rfl

/-- On acyclic chains the spec function is depth-independent beyond the
rank. -/
theorem specSetRaw_depth {app : ClientApp} {rk : PanelButton → Nat}
    (hrk : RankOk app rk) :
    ∀ (n : Nat) (b : PanelButton) (sk : SetKey) (d : Nat), rk b ≤ n → rk b < d →
      specSetRaw d app (some b) sk = specSetRaw (rk b + 1) app (some b) sk := by
  intro n
  induction n with
  | zero =>
    intro b sk d hle hlt
    obtain ⟨d', rfl⟩ : ∃ d', d = d' + 1 := ⟨d - 1, by omega⟩
    rw [specSetRaw_succ, specSetRaw_succ]
    cases hov : ownSetVal b sk with
    | some v => rfl
    | none =>
      cases hp : getParent app b with
      | none => rw [specSetRaw_none, specSetRaw_none]
      | some p => exact absurd (hrk b p hp) (by omega)
  | succ n ih =>
    intro b sk d hle hlt
    obtain ⟨d', rfl⟩ : ∃ d', d = d' + 1 := ⟨d - 1, by omega⟩
    rw [specSetRaw_succ, specSetRaw_succ]
    cases hov : ownSetVal b sk with
    | some v => rfl
    | none =>
      cases hp : getParent app b with
      | none => rw [specSetRaw_none, specSetRaw_none]
      | some p =>
        have hplt := hrk b p hp
        rw [ih p sk d' (by omega) (by omega), ih p sk (rk b) (by omega) (by omega)]

/-- Internal (raw) set lookups refine the spec's precedence function when the
template graph is acyclic and `setGlobals` is defined. -/
theorem lookupSet_internal_spec {app : ClientApp} {rk : PanelButton → Nat}
    (hrk : RankOk app rk) {g : List (String × String)}
    (hg : app.setGlobals = some g) :
    ∀ (n : Nat) (b : PanelButton), rk b ≤ n → ∀ (sk : SetKey) (os : Option (List SetKey)),
      EvalSet app (some b) sk true os
        (.ret (specSetRaw (rk b + 1) app (some b) sk)) ∧
      (specSetRaw (rk b + 1) app (some b) sk = none →
        assocFind g (setKeyPropName sk) = none) := by
  intro n
  induction n with
  | zero =>
    intro b hle sk os
    rw [specSetRaw_succ]
    cases hov : ownSetVal b sk with
    | some v =>
      refine ⟨⟨by simp, 1, fun m hm => ?_⟩, by simp⟩
      obtain ⟨m', rfl⟩ : ∃ m', m = m' + 1 := ⟨m - 1, by omega⟩
      rw [lookupSet_some, hov, setFinish_internal]
    | none =>
      cases hp : getParent app b with
      | some p => exact absurd (hrk b p hp) (by omega)
      | none =>
        rw [specSetRaw_none, hg]
        refine ⟨⟨by simp, 2, fun m hm => ?_⟩, fun hnone => by simpa using hnone⟩
        obtain ⟨m', rfl⟩ : ∃ m', m = m' + 2 := ⟨m - 2, by omega⟩
        rw [show m' + 2 = (m' + 1) + 1 by rfl, lookupSet_some, hov, hp]
        rw [lookupSet_none, hg, setFinish_internal]
        rfl
  | succ n ih =>
    intro b hle sk os
    rw [specSetRaw_succ]
    cases hov : ownSetVal b sk with
    | some v =>
      refine ⟨⟨by simp, 1, fun m hm => ?_⟩, by simp⟩
      obtain ⟨m', rfl⟩ : ∃ m', m = m' + 1 := ⟨m - 1, by omega⟩
      rw [lookupSet_some, hov, setFinish_internal]
    | none =>
      cases hp : getParent app b with
      | none =>
        rw [specSetRaw_none, hg]
        refine ⟨⟨by simp, 2, fun m hm => ?_⟩, fun hnone => by simpa using hnone⟩
        obtain ⟨m', rfl⟩ : ∃ m', m = m' + 2 := ⟨m - 2, by omega⟩
        rw [show m' + 2 = (m' + 1) + 1 by rfl, lookupSet_some, hov, hp]
        rw [lookupSet_none, hg, setFinish_internal]
        rfl
      | some p =>
        have hplt := hrk b p hp
        obtain ⟨⟨_, np, hnp⟩, himp⟩ := ih p (by omega) sk os
        have hspec : specSetRaw (rk b) app (some p) sk =
            specSetRaw (rk p + 1) app (some p) sk :=
          specSetRaw_depth hrk n p sk (rk b) (by omega) (by omega)
        rw [hspec]
        refine ⟨⟨by simp, np + 1, fun m hm => ?_⟩, ?_⟩
        · obtain ⟨m', rfl⟩ : ∃ m', m = m' + 1 := ⟨m - 1, by omega⟩
          rw [lookupSet_some, hov, hp, hnp m' (by omega), setFinish_internal]
          cases hrp : specSetRaw (rk p + 1) app (some p) sk with
          | some v => rfl
          | none =>
            rw [hg]
            simp [setRawAux, himp hrp]
        · intro hnone
          exact himp hnone

def c7T : PanelButton := { text := "T", set := some [("a", "y"), ("b", "z")] }
def c7B : PanelButton := { text := "B", is := some "T", set := some [("a", "x")] }
def c7App : ClientApp := ⟨some [("T", c7T)], some []⟩

/-- C7: set-key lookup precedence is the button's own `set[key]` first, then
the parent chain's `set`/`setList` recursively via `is`, then the global
fallback map, then null — internal lookups coincide with the spec's
precedence function `specSetRaw` on every acyclic app with a defined
fallback map; concretely, with `B.set = {a: "x"}`, `B.is = T`,
`T.set = {a: "y", b: "z"}`, key `"a"` on `B` yields `"x"` and `"b"` yields
`"z"`. -/
theorem C7_set_key_precedence :
    (∀ (app : ClientApp) (rk : PanelButton → Nat), RankOk app rk →
      ∀ (g : List (String × String)), app.setGlobals = some g →
      ∀ (b : PanelButton) (sk : SetKey) (os : Option (List SetKey)),
        EvalSet app (some b) sk true os
          (.ret (specSetRaw (rk b + 1) app (some b) sk))) ∧
    EvalSet c7App (some c7B) (.str "a") false none (.ret (some "x")) ∧
    EvalSet c7App (some c7B) (.str "b") false none (.ret (some "z")) := by
  refine ⟨?_, evalSet_of_fuel (n := 9) (by decide) (by decide),
    evalSet_of_fuel (n := 9) (by decide) (by decide)⟩
  intro app rk hrk g hg b sk os
  exact (lookupSet_internal_spec hrk hg (rk b) b le_rfl sk os).1

/-- Witness for C7's general conjunct at a concrete acyclic app: the spec
function and the code agree (here the chain is empty and the key missing, so
both give null). -/
theorem C7_set_key_precedence_witness :
    EvalSet ⟨none, some []⟩ (some (PanelButton.mk "" none none none [])) (.str "q")
      true none
      (.ret (specSetRaw 1 ⟨none, some []⟩
        (some (PanelButton.mk "" none none none [])) (.str "q"))) :=
  C7_set_key_precedence.1 ⟨none, some []⟩ (fun _ => 0)
    (fun b p hp => by
      unfold getParent at hp
      cases his : b.is with
      | none => rw [his] at hp; cases hp
      | some nm =>
        rw [his] at hp
        by_cases hnm : nm = "" <;> simp [hnm] at hp)
    [] rfl (PanelButton.mk "" none none none []) (.str "q") none

/-! ## Claim C6: termination machinery

All strings an expansion can recursively reach live in the fixed, finite
pool `ctxStrings` (the requesting button's `set`/`setList` values, all
template `set`/`setList` values, all fallback-map values).  Each nesting of
the expansion strictly grows the visited set inside the finite key universe
`univKeys`, so the nesting depth — and with fuel monotonicity the whole
run — is bounded. -/

/-- The token keys appearing (unescaped) in a character stream, mirroring
the scan. -/
def tokenKeysL : List Char → List SetKey
  | [] => []
  | c :: cs =>
    if c = '$' then
      match hm : matchAfterDollar cs with
      | some t =>
        (if t.slashes = 0 then [parseTokenKey t.keyText] else []) ++ tokenKeysL t.rest
      | none => tokenKeysL cs
    else tokenKeysL cs
termination_by cs => cs.length
decreasing_by
  all_goals simp_wf
  all_goals
    first
    | omega
    | (have hlt := matchAfterDollar_rest_length hm
       omega)

theorem tokenKeysL_cons_nondollar {c : Char} {cs : List Char} (h : ¬c = '$') :
    tokenKeysL (c :: cs) = tokenKeysL cs := by
  rw [tokenKeysL, if_neg h]

theorem tokenKeysL_cons_nomatch {cs : List Char} (h : matchAfterDollar cs = none) :
    tokenKeysL ('$' :: cs) = tokenKeysL cs := by
  rw [tokenKeysL, if_pos rfl]
  split
  · rename_i t heq
    rw [h] at heq
    cases heq
  · rfl

theorem tokenKeysL_cons_match {cs : List Char} {t : TokenMatch}
    (h : matchAfterDollar cs = some t) :
    tokenKeysL ('$' :: cs) =
      (if t.slashes = 0 then [parseTokenKey t.keyText] else []) ++ tokenKeysL t.rest := by
  rw [tokenKeysL, if_pos rfl]
  split
  · rename_i t2 heq
    rw [h] at heq
    cases heq
    rfl
  · rename_i heq
    rw [h] at heq
    cases heq

/-- The strings of a button's own `set` and `setList`. -/
def buttonStrings (b : PanelButton) : List String :=
  (b.set.getD []).map (·.2) ++ b.setList.getD []

/-- All strings of all templates. -/
def tmplStrings (app : ClientApp) : List String :=
  (app.templates.getD []).flatMap (fun pr => buttonStrings pr.2)

/-- All values of the global fallback map. -/
def globStrings (app : ClientApp) : List String :=
  (app.setGlobals.getD []).map (·.2)

/-- Every string a (non-initial) nested expansion can be handed, for a fixed
requesting button. -/
def ctxStrings (app : ClientApp) (ob : Option PanelButton) : List String :=
  (match ob with | some b => buttonStrings b | none => []) ++
    tmplStrings app ++ globStrings app

/-- The finite key universe of an expansion of `cs` in context `(app, ob)`. -/
def univKeys (app : ClientApp) (ob : Option PanelButton) (cs : List Char) :
    List SetKey :=
  tokenKeysL cs ++ (ctxStrings app ob).flatMap (fun s => tokenKeysL s.data)

/-- The termination measure: unvisited keys of the universe. -/
def keysLeft (app : ClientApp) (ob : Option PanelButton) (cs : List Char)
    (seen : List SetKey) : Nat :=
  ((univKeys app ob cs).toFinset \ seen.toFinset).card

theorem assocFind_pair_mem {α : Type} {l : List (String × α)} {k : String} {v : α}
    (h : assocFind l k = some v) : ∃ pr ∈ l, pr.2 = v := by
  unfold assocFind at h
  rw [Option.map_eq_some'] at h
  obtain ⟨pr, hfind, hv⟩ := h
  exact ⟨pr, List.mem_of_find?_eq_some hfind, hv⟩

theorem assocFind_value_mem {α : Type} {l : List (String × α)} {k : String} {v : α}
    (h : assocFind l k = some v) : v ∈ l.map (·.2) := by
  obtain ⟨pr, hmem, hv⟩ := assocFind_pair_mem h
  exact List.mem_map.mpr ⟨pr, hmem, hv⟩

theorem ownSetVal_mem {b : PanelButton} {sk : SetKey} {v : String}
    (h : ownSetVal b sk = some v) : v ∈ buttonStrings b := by
  unfold buttonStrings
  cases sk with
  | str s =>
    unfold ownSetVal at h
    rw [Option.bind_eq_some] at h
    obtain ⟨m, hm, hfind⟩ := h
    rw [List.mem_append]
    left
    have := assocFind_value_mem hfind
    rwa [show (b.set.getD []) = m by rw [hm]; rfl]
  | num n =>
    unfold ownSetVal at h
    rw [Option.bind_eq_some] at h
    obtain ⟨l, hl, hget⟩ := h
    rw [List.mem_append]
    right
    rw [show (b.setList.getD []) = l by rw [hl]; rfl]
    exact List.getElem?_mem hget
  | inf => cases h

theorem getParent_strings_sub {app : ClientApp} {b p : PanelButton}
    (h : getParent app b = some p) :
    ∀ s ∈ buttonStrings p, s ∈ tmplStrings app := by
  intro s hs
  unfold getParent at h
  cases his : b.is with
  | none => rw [his] at h; cases h
  | some nm =>
    rw [his] at h
    by_cases hnm : nm = ""
    · simp [hnm] at h
    · simp only [hnm, if_false] at h
      rw [Option.bind_eq_some] at h
      obtain ⟨ts, hts, hfind⟩ := h
      obtain ⟨pr, hmem, hv⟩ := assocFind_pair_mem hfind
      unfold tmplStrings
      rw [show app.templates.getD [] = ts by rw [hts]; rfl]
      exact List.mem_flatMap.mpr ⟨pr, hmem, by rw [hv]; exact hs⟩

/-- Internal (`isLookup`) set lookups on an acyclic chain stabilise; their
values come from the context string pool; with a defined fallback map they
never throw. -/
theorem lookupSet_internal_stab {app : ClientApp} {rk : PanelButton → Nat}
    (hrk : RankOk app rk) :
    ∀ (n : Nat) (b : PanelButton), rk b ≤ n → ∀ (sk : SetKey) (os : Option (List SetKey)),
    ∃ r, EvalSet app (some b) sk true os r ∧
      (∀ v, r = .ret (some v) →
        v ∈ buttonStrings b ∨ v ∈ tmplStrings app ∨ v ∈ globStrings app) ∧
      (∀ g, app.setGlobals = some g → r ≠ .thrown) := by
  intro n
  induction n with
  | zero =>
    intro b hle sk os
    cases hov : ownSetVal b sk with
    | some v =>
      refine ⟨.ret (some v), ⟨by simp, 1, fun m hm => ?_⟩, ?_, by simp⟩
      · obtain ⟨m', rfl⟩ : ∃ m', m = m' + 1 := ⟨m - 1, by omega⟩
        rw [lookupSet_some, hov, setFinish_internal]
      · intro v' hv'
        cases hv'
        exact Or.inl (ownSetVal_mem hov)
    | none =>
      cases hp : getParent app b with
      | some p => exact absurd (hrk b p hp) (by omega)
      | none =>
        cases hgl : app.setGlobals with
        | none =>
          refine ⟨.thrown, ⟨by simp, 2, fun m hm => ?_⟩, by simp, ?_⟩
          · obtain ⟨m', rfl⟩ : ∃ m', m = m' + 2 := ⟨m - 2, by omega⟩
            rw [show m' + 2 = (m' + 1) + 1 from rfl, lookupSet_some, hov, hp,
              lookupSet_none, hgl]
            rfl
          · intro g hg
            cases hg
        | some g0 =>
          refine ⟨.ret (assocFind g0 (setKeyPropName sk)),
            ⟨by simp, 2, fun m hm => ?_⟩, ?_, by simp⟩
          · obtain ⟨m', rfl⟩ : ∃ m', m = m' + 2 := ⟨m - 2, by omega⟩
            rw [show m' + 2 = (m' + 1) + 1 from rfl, lookupSet_some, hov, hp,
              lookupSet_none, hgl, setFinish_internal]
            rfl
          · intro v hv
            cases hfa : assocFind g0 (setKeyPropName sk) with
            | none => rw [hfa] at hv; cases hv
            | some w =>
              rw [hfa] at hv
              cases hv
              right; right
              unfold globStrings
              rw [show app.setGlobals.getD [] = g0 by rw [hgl]; rfl]
              exact assocFind_value_mem hfa
  | succ n ih =>
    intro b hle sk os
    cases hov : ownSetVal b sk with
    | some v =>
      refine ⟨.ret (some v), ⟨by simp, 1, fun m hm => ?_⟩, ?_, by simp⟩
      · obtain ⟨m', rfl⟩ : ∃ m', m = m' + 1 := ⟨m - 1, by omega⟩
        rw [lookupSet_some, hov, setFinish_internal]
      · intro v' hv'
        cases hv'
        exact Or.inl (ownSetVal_mem hov)
    | none =>
      cases hp : getParent app b with
      | none =>
        cases hgl : app.setGlobals with
        | none =>
          refine ⟨.thrown, ⟨by simp, 2, fun m hm => ?_⟩, by simp, ?_⟩
          · obtain ⟨m', rfl⟩ : ∃ m', m = m' + 2 := ⟨m - 2, by omega⟩
            rw [show m' + 2 = (m' + 1) + 1 from rfl, lookupSet_some, hov, hp,
              lookupSet_none, hgl]
            rfl
          · intro g hg
            cases hg
        | some g0 =>
          refine ⟨.ret (assocFind g0 (setKeyPropName sk)),
            ⟨by simp, 2, fun m hm => ?_⟩, ?_, by simp⟩
          · obtain ⟨m', rfl⟩ : ∃ m', m = m' + 2 := ⟨m - 2, by omega⟩
            rw [show m' + 2 = (m' + 1) + 1 from rfl, lookupSet_some, hov, hp,
              lookupSet_none, hgl, setFinish_internal]
            rfl
          · intro v hv
            cases hfa : assocFind g0 (setKeyPropName sk) with
            | none => rw [hfa] at hv; cases hv
            | some w =>
              rw [hfa] at hv
              cases hv
              right; right
              unfold globStrings
              rw [show app.setGlobals.getD [] = g0 by rw [hgl]; rfl]
              exact assocFind_value_mem hfa
      | some p =>
        have hplt := hrk b p hp
        obtain ⟨rp, ⟨hpnt, np, hnp⟩, hpmem, hpng⟩ := ih p (by omega) sk os
        cases rp with
        | timeout => exact absurd rfl hpnt
        | thrown =>
          refine ⟨.thrown, ⟨by simp, np + 1, fun m hm => ?_⟩, by simp, ?_⟩
          · obtain ⟨m', rfl⟩ : ∃ m', m = m' + 1 := ⟨m - 1, by omega⟩
            rw [lookupSet_some, hov, hp, hnp m' (by omega)]
            rfl
          · intro g hg
            exact absurd rfl (hpng g hg)
        | ret ov =>
          cases ov with
          | some v =>
            refine ⟨.ret (some v), ⟨by simp, np + 1, fun m hm => ?_⟩, ?_, by simp⟩
            · obtain ⟨m', rfl⟩ : ∃ m', m = m' + 1 := ⟨m - 1, by omega⟩
              rw [lookupSet_some, hov, hp, hnp m' (by omega), setFinish_internal]
              rfl
            · intro v' hv'
              cases hv'
              rcases hpmem v rfl with hb | ht | hg
              · exact Or.inr (Or.inl (getParent_strings_sub hp _ hb))
              · exact Or.inr (Or.inl ht)
              · exact Or.inr (Or.inr hg)
          | none =>
            cases hgl : app.setGlobals with
            | none =>
              refine ⟨.thrown, ⟨by simp, np + 1, fun m hm => ?_⟩, by simp, ?_⟩
              · obtain ⟨m', rfl⟩ : ∃ m', m = m' + 1 := ⟨m - 1, by omega⟩
                rw [lookupSet_some, hov, hp, hnp m' (by omega), hgl]
                rfl
              · intro g hg
                cases hg
            | some g0 =>
              refine ⟨.ret (assocFind g0 (setKeyPropName sk)),
                ⟨by simp, np + 1, fun m hm => ?_⟩, ?_, by simp⟩
              · obtain ⟨m', rfl⟩ : ∃ m', m = m' + 1 := ⟨m - 1, by omega⟩
                rw [lookupSet_some, hov, hp, hnp m' (by omega), hgl, setFinish_internal]
                rfl
              · intro v hv
                cases hfa : assocFind g0 (setKeyPropName sk) with
                | none => rw [hfa] at hv; cases hv
                | some w =>
                  rw [hfa] at hv
                  cases hv
                  right; right
                  unfold globStrings
                  rw [show app.setGlobals.getD [] = g0 by rw [hgl]; rfl]
                  exact assocFind_value_mem hfa

theorem runPrepend_ne_thrown {p : String} {r : Run String} :
    runPrepend p r ≠ .thrown ↔ r ≠ .thrown := by
  cases r <;> simp [runPrepend]

theorem tokenKeys_sub_univ {app : ClientApp} {ob : Option PanelButton}
    {cs : List Char} {k : SetKey} (h : k ∈ tokenKeysL cs) :
    k ∈ univKeys app ob cs := by
  unfold univKeys
  exact List.mem_append.mpr (Or.inl h)

theorem keysLeft_mono {app : ClientApp} {ob : Option PanelButton}
    {cs cs' : List Char} {seen : List SetKey}
    (hsub : ∀ x ∈ tokenKeysL cs', x ∈ tokenKeysL cs) :
    keysLeft app ob cs' seen ≤ keysLeft app ob cs seen := by
  unfold keysLeft
  apply Finset.card_le_card
  intro x hx
  rw [Finset.mem_sdiff] at hx ⊢
  refine ⟨?_, hx.2⟩
  rw [List.mem_toFinset] at hx ⊢
  unfold univKeys at hx ⊢
  rcases List.mem_append.mp hx.1 with h1 | h2
  · exact List.mem_append.mpr (Or.inl (hsub x h1))
  · exact List.mem_append.mpr (Or.inr h2)

theorem keysLeft_pos {app : ClientApp} {ob : Option PanelButton}
    {cs : List Char} {seen : List SetKey} {k : SetKey}
    (hk : k ∈ tokenKeysL cs) (hns : ¬k ∈ seen) :
    1 ≤ keysLeft app ob cs seen := by
  unfold keysLeft
  rw [Nat.one_le_iff_ne_zero, ← Nat.pos_iff_ne_zero, Finset.card_pos]
  refine ⟨k, ?_⟩
  rw [Finset.mem_sdiff, List.mem_toFinset, List.mem_toFinset]
  exact ⟨tokenKeys_sub_univ hk, hns⟩

/-- The key nesting step: expanding a pool string with the token's key newly
added to the visited set strictly shrinks the measure. -/
theorem keysLeft_push {app : ClientApp} {ob : Option PanelButton}
    {cs : List Char} {seen : List SetKey} {k : SetKey} {v : String}
    (hk : k ∈ tokenKeysL cs) (hns : ¬k ∈ seen) (hv : v ∈ ctxStrings app ob) :
    keysLeft app ob v.data (k :: seen) < keysLeft app ob cs seen := by
  unfold keysLeft
  have hkA : k ∈ (univKeys app ob cs).toFinset \ seen.toFinset := by
    rw [Finset.mem_sdiff, List.mem_toFinset, List.mem_toFinset]
    exact ⟨tokenKeys_sub_univ hk, hns⟩
  calc ((univKeys app ob v.data).toFinset \ (k :: seen).toFinset).card
      ≤ (((univKeys app ob cs).toFinset \ seen.toFinset).erase k).card := by
        apply Finset.card_le_card
        intro x hx
        rw [Finset.mem_sdiff, List.mem_toFinset, List.mem_toFinset] at hx
        obtain ⟨hxu, hxs⟩ := hx
        rw [List.mem_cons] at hxs
        push_neg at hxs
        rw [Finset.mem_erase, Finset.mem_sdiff, List.mem_toFinset, List.mem_toFinset]
        refine ⟨hxs.1, ?_, hxs.2⟩
        unfold univKeys at hxu ⊢
        rcases List.mem_append.mp hxu with h1 | h2
        · refine List.mem_append.mpr (Or.inr ?_)
          exact List.mem_flatMap.mpr ⟨v, hv, h1⟩
        · exact List.mem_append.mpr (Or.inr h2)
    _ < ((univKeys app ob cs).toFinset \ seen.toFinset).card :=
        Finset.card_erase_lt_of_mem hkA

theorem buttonStrings_sub_ctx {app : ClientApp} {b : PanelButton} :
    ∀ s ∈ buttonStrings b, s ∈ ctxStrings app (some b) := by
  intro s hs
  unfold ctxStrings
  exact List.mem_append.mpr (Or.inl (List.mem_append.mpr (Or.inl hs)))

theorem tmplStrings_sub_ctx {app : ClientApp} {ob : Option PanelButton} :
    ∀ s ∈ tmplStrings app, s ∈ ctxStrings app ob := by
  intro s hs
  unfold ctxStrings
  cases ob <;>
    simp only [List.append_assoc, List.mem_append] <;>
      exact Or.inr (Or.inl hs)

theorem globStrings_sub_ctx {app : ClientApp} {ob : Option PanelButton} :
    ∀ s ∈ globStrings app, s ∈ ctxStrings app ob := by
  intro s hs
  unfold ctxStrings
  cases ob <;>
    simp only [List.append_assoc, List.mem_append] <;>
      exact Or.inr (Or.inr hs)

/-- A non-internal set lookup stabilises, given stable expansions for every
pool string (with the caller's updated visited set); with a defined fallback
map it never throws. -/
theorem lookupSet_root_stab {app : ClientApp} {rk : PanelButton → Nat}
    (hrk : RankOk app rk) (ob : Option PanelButton) (sk : SetKey)
    (seen' : List SetKey)
    (hexp : ∀ v : String, v ∈ ctxStrings app ob →
      ∃ e, e ≠ Run.timeout ∧ (∃ n, ∀ m, n ≤ m → expandF m app ob v seen' = e) ∧
        (∀ g, app.setGlobals = some g → e ≠ .thrown)) :
    ∃ r, r ≠ Run.timeout ∧
      (∃ n, ∀ m, n ≤ m → lookupSet m app ob sk false (some seen') = r) ∧
      (∀ g, app.setGlobals = some g → r ≠ .thrown) := by
  cases ob with
  | none =>
    exact ⟨.ret none, by simp, ⟨1, fun m hm => by
      obtain ⟨m', rfl⟩ : ∃ m', m = m' + 1 := ⟨m - 1, by omega⟩
      exact lookupSet_none⟩, by simp⟩
  | some b =>
    -- the raw `setValue` chain stabilises with pool-membership for values
    have hraw : ∃ (rr : Run (Option String)) (n : Nat), rr ≠ .timeout ∧
        (∀ m, n ≤ m →
          (match ownSetVal b sk with
           | some v => Run.ret (some v)
           | none => setRawAux (lookupSet m app (getParent app b) sk true (some seen'))
               app.setGlobals sk) = rr) ∧
        (∀ g, app.setGlobals = some g → rr ≠ .thrown) ∧
        (∀ v, rr = .ret (some v) → v ∈ ctxStrings app (some b)) := by
      cases hov : ownSetVal b sk with
      | some v =>
        refine ⟨.ret (some v), 0, by simp, fun m hm => rfl, by simp, ?_⟩
        intro v' hv'
        cases hv'
        exact buttonStrings_sub_ctx v (ownSetVal_mem hov)
      | none =>
        cases hp : getParent app b with
        | none =>
          cases hgl : app.setGlobals with
          | none =>
            refine ⟨.thrown, 1, by simp, fun m hm => ?_, ?_, by simp⟩
            · obtain ⟨m', rfl⟩ : ∃ m', m = m' + 1 := ⟨m - 1, by omega⟩
              rw [lookupSet_none]
              rfl
            · intro g hg
              cases hg
          | some g0 =>
            refine ⟨.ret (assocFind g0 (setKeyPropName sk)), 1, by simp,
              fun m hm => ?_, by simp, ?_⟩
            · obtain ⟨m', rfl⟩ : ∃ m', m = m' + 1 := ⟨m - 1, by omega⟩
              rw [lookupSet_none]
              rfl
            · intro v hv
              cases hfa : assocFind g0 (setKeyPropName sk) with
              | none => rw [hfa] at hv; cases hv
              | some w =>
                rw [hfa] at hv
                cases hv
                refine globStrings_sub_ctx v ?_
                unfold globStrings
                rw [show app.setGlobals.getD [] = g0 by rw [hgl]; rfl]
                exact assocFind_value_mem hfa
        | some p =>
          obtain ⟨rp, ⟨hpnt, np, hnp⟩, hpmem, hpng⟩ :=
            lookupSet_internal_stab hrk (rk p) p le_rfl sk (some seen')
          have hmem' : ∀ v, rp = .ret (some v) → v ∈ ctxStrings app (some b) := by
            intro v hv
            rcases hpmem v hv with h1 | h2 | h3
            · exact tmplStrings_sub_ctx v (getParent_strings_sub hp v h1)
            · exact tmplStrings_sub_ctx v h2
            · exact globStrings_sub_ctx v h3
          cases rp with
          | timeout => exact absurd rfl hpnt
          | thrown =>
            refine ⟨.thrown, np, by simp, fun m hm => ?_, ?_, by simp⟩
            · rw [hnp m hm]
              rfl
            · intro g hg
              exact absurd rfl (hpng g hg)
          | ret ov =>
            cases ov with
            | some v =>
              refine ⟨.ret (some v), np, by simp, fun m hm => ?_, by simp, ?_⟩
              · rw [hnp m hm]
                rfl
              · intro v' hv'
                cases hv'
                exact hmem' v rfl
            | none =>
              cases hgl : app.setGlobals with
              | none =>
                refine ⟨.thrown, np, by simp, fun m hm => ?_, ?_, by simp⟩
                · rw [hnp m hm]
                  rfl
                · intro g hg
                  cases hg
              | some g0 =>
                refine ⟨.ret (assocFind g0 (setKeyPropName sk)), np, by simp,
                  fun m hm => ?_, by simp, ?_⟩
                · rw [hnp m hm]
                  rfl
                · intro v hv
                  cases hfa : assocFind g0 (setKeyPropName sk) with
                  | none => rw [hfa] at hv; cases hv
                  | some w =>
                    rw [hfa] at hv
                    cases hv
                    refine globStrings_sub_ctx v ?_
                    unfold globStrings
                    rw [show app.setGlobals.getD [] = g0 by rw [hgl]; rfl]
                    exact assocFind_value_mem hfa
    obtain ⟨rr, nr, hrrnt, hrr, hrrng, hrrmem⟩ := hraw
    cases rr with
    | timeout => exact absurd rfl hrrnt
    | thrown =>
      refine ⟨.thrown, by simp, ⟨nr + 1, fun m hm => ?_⟩, ?_⟩
      · obtain ⟨m', rfl⟩ : ∃ m', m = m' + 1 := ⟨m - 1, by omega⟩
        rw [lookupSet_some, hrr m' (by omega)]
        rfl
      · intro g hg
        exact absurd rfl (hrrng g hg)
    | ret ov =>
      cases ov with
      | none =>
        refine ⟨.ret none, by simp, ⟨nr + 1, fun m hm => ?_⟩, by simp⟩
        obtain ⟨m', rfl⟩ : ∃ m', m = m' + 1 := ⟨m - 1, by omega⟩
        rw [lookupSet_some, hrr m' (by omega)]
        rfl
      | some v =>
        obtain ⟨e, hent, ⟨ne, hne⟩, heng⟩ := hexp v (hrrmem v rfl)
        cases e with
        | timeout => exact absurd rfl hent
        | thrown =>
          refine ⟨.thrown, by simp, ⟨max nr ne + 1, fun m hm => ?_⟩, ?_⟩
          · obtain ⟨m', rfl⟩ : ∃ m', m = m' + 1 := ⟨m - 1, by omega⟩
            rw [lookupSet_some, hrr m' (by omega)]
            simp only [setFinish, if_neg (by decide : ¬false = true)]
            rw [show (Option.getD (some seen') [sk]) = seen' from rfl]
            rw [hne m' (by omega)]
          · intro g hg
            exact absurd rfl (heng g hg)
        | ret t =>
          refine ⟨.ret (some t), by simp, ⟨max nr ne + 1, fun m hm => ?_⟩, by simp⟩
          obtain ⟨m', rfl⟩ : ∃ m', m = m' + 1 := ⟨m - 1, by omega⟩
          rw [lookupSet_some, hrr m' (by omega)]
          simp only [setFinish, if_neg (by decide : ¬false = true)]
          rw [show (Option.getD (some seen') [sk]) = seen' from rfl]
          rw [hne m' (by omega)]
        -- thrown propagation handled above

/-- Inner step of the stabilisation proof: given stabilisation for all
strictly smaller measures, a scan stabilises, by induction on the scanned
characters. -/
theorem scanF_stab_aux {app : ClientApp} {rk : PanelButton → Nat}
    (hrk : RankOk app rk) (ob : Option PanelButton) (N : Nat)
    (hsmall : ∀ (cs' : List Char) (seen' : List SetKey),
      keysLeft app ob cs' seen' < N →
      ∃ r, r ≠ Run.timeout ∧ (∃ n, ∀ m, n ≤ m → scanF m app ob cs' seen' = r) ∧
        (∀ g, app.setGlobals = some g → r ≠ .thrown)) :
    ∀ (L : Nat) (cs : List Char) (seen : List SetKey), cs.length ≤ L →
      keysLeft app ob cs seen ≤ N →
      ∃ r, r ≠ Run.timeout ∧ (∃ n, ∀ m, n ≤ m → scanF m app ob cs seen = r) ∧
        (∀ g, app.setGlobals = some g → r ≠ .thrown) := by
  intro L
  induction L with
  | zero =>
    intro cs seen hlen _
    have hnil : cs = [] := List.eq_nil_of_length_eq_zero (Nat.le_zero.mp hlen)
    subst hnil
    refine ⟨.ret "", by simp, ⟨1, fun m hm => ?_⟩, by simp⟩
    obtain ⟨m', rfl⟩ : ∃ m', m = m' + 1 := ⟨m - 1, by omega⟩
    exact scanF_nil
  | succ L ihL =>
    intro cs seen hlen hN
    cases cs with
    | nil =>
      refine ⟨.ret "", by simp, ⟨1, fun m hm => ?_⟩, by simp⟩
      obtain ⟨m', rfl⟩ : ∃ m', m = m' + 1 := ⟨m - 1, by omega⟩
      exact scanF_nil
    | cons c cs' =>
      have hlen' : cs'.length ≤ L := by
        simp only [List.length_cons] at hlen
        omega
      by_cases hc : c = '$'
      · subst hc
        cases hm : matchAfterDollar cs' with
        | none =>
          obtain ⟨r', hnt', ⟨n', hn'⟩, hng'⟩ := ihL cs' seen hlen'
            (le_trans (keysLeft_mono (fun x hx => by
              rw [tokenKeysL_cons_nomatch hm]; exact hx)) hN)
          refine ⟨runPrepend "$" r', runPrepend_ne_timeout.mpr hnt',
            ⟨n' + 1, fun m hm2 => ?_⟩,
            fun g hg => runPrepend_ne_thrown.mpr (hng' g hg)⟩
          obtain ⟨m', rfl⟩ : ∃ m', m = m' + 1 := ⟨m - 1, by omega⟩
          rw [scanF_cons_nomatch hm, hn' m' (by omega)]
        | some t =>
          have hrestlen : t.rest.length ≤ L := by
            have := matchAfterDollar_rest_length hm
            omega
          have hrestsub : ∀ x ∈ tokenKeysL t.rest, x ∈ tokenKeysL ('$' :: cs') := by
            intro x hx
            rw [tokenKeysL_cons_match hm]
            exact List.mem_append.mpr (Or.inr hx)
          by_cases hs : 0 < t.slashes
          · obtain ⟨r', hnt', ⟨n', hn'⟩, hng'⟩ := ihL t.rest seen hrestlen
              (le_trans (keysLeft_mono hrestsub) hN)
            refine ⟨runPrepend (peeledText t) r', runPrepend_ne_timeout.mpr hnt',
              ⟨n' + 1, fun m hm2 => ?_⟩,
              fun g hg => runPrepend_ne_thrown.mpr (hng' g hg)⟩
            obtain ⟨m', rfl⟩ : ∃ m', m = m' + 1 := ⟨m - 1, by omega⟩
            rw [scanF_cons_escaped hm hs, hn' m' (by omega)]
          · have hs0 : t.slashes = 0 := by omega
            by_cases hkmem : parseTokenKey t.keyText ∈ seen
            · obtain ⟨r', hnt', ⟨n', hn'⟩, hng'⟩ := ihL t.rest seen hrestlen
                (le_trans (keysLeft_mono hrestsub) hN)
              refine ⟨runPrepend (matchedText t) r', runPrepend_ne_timeout.mpr hnt',
                ⟨n' + 1, fun m hm2 => ?_⟩,
                fun g hg => runPrepend_ne_thrown.mpr (hng' g hg)⟩
              obtain ⟨m', rfl⟩ : ∃ m', m = m' + 1 := ⟨m - 1, by omega⟩
              rw [scanF_cons_seen hm hs0 hkmem, hn' m' (by omega)]
            · have hkuniv : parseTokenKey t.keyText ∈ tokenKeysL ('$' :: cs') := by
                rw [tokenKeysL_cons_match hm, hs0]
                exact List.mem_append.mpr (Or.inl (by simp))
              have hexp : ∀ v : String, v ∈ ctxStrings app ob →
                  ∃ e, e ≠ Run.timeout ∧
                    (∃ n, ∀ m, n ≤ m →
                      expandF m app ob v (parseTokenKey t.keyText :: seen) = e) ∧
                    (∀ g, app.setGlobals = some g → e ≠ .thrown) := by
                intro v hv
                have hsm : keysLeft app ob v.data (parseTokenKey t.keyText :: seen) < N :=
                  lt_of_lt_of_le (keysLeft_push hkuniv hkmem hv) hN
                obtain ⟨e, hent, ⟨ne, hne⟩, heng⟩ := hsmall v.data
                  (parseTokenKey t.keyText :: seen) hsm
                refine ⟨e, hent, ⟨ne + 1, fun m hm2 => ?_⟩, heng⟩
                obtain ⟨m', rfl⟩ : ∃ m', m = m' + 1 := ⟨m - 1, by omega⟩
                rw [expandF]
                exact hne m' (by omega)
              obtain ⟨rl, hlnt, ⟨nl, hnl⟩, hlng⟩ :=
                lookupSet_root_stab hrk ob (parseTokenKey t.keyText)
                  (parseTokenKey t.keyText :: seen) hexp
              cases rl with
              | timeout => exact absurd rfl hlnt
              | thrown =>
                refine ⟨.thrown, by simp, ⟨nl + 1, fun m hm2 => ?_⟩, ?_⟩
                · obtain ⟨m', rfl⟩ : ∃ m', m = m' + 1 := ⟨m - 1, by omega⟩
                  rw [scanF_cons_tok hm hs0 hkmem, hnl m' (by omega)]
                · intro g hg
                  exact absurd rfl (hlng g hg)
              | ret value =>
                obtain ⟨r', hnt', ⟨n', hn'⟩, hng'⟩ := ihL t.rest seen hrestlen
                  (le_trans (keysLeft_mono hrestsub) hN)
                refine ⟨runPrepend (applyTransform t.fn value (matchedText t)) r',
                  runPrepend_ne_timeout.mpr hnt',
                  ⟨max nl n' + 1, fun m hm2 => ?_⟩,
                  fun g hg => runPrepend_ne_thrown.mpr (hng' g hg)⟩
                obtain ⟨m', rfl⟩ : ∃ m', m = m' + 1 := ⟨m - 1, by omega⟩
                rw [scanF_cons_tok hm hs0 hkmem, hnl m' (by omega)]
                simp only []
                rw [hn' m' (by omega)]
      · obtain ⟨r', hnt', ⟨n', hn'⟩, hng'⟩ := ihL cs' seen hlen'
          (le_trans (keysLeft_mono (fun x hx => by
            rw [tokenKeysL_cons_nondollar hc]; exact hx)) hN)
        refine ⟨runPrepend (String.mk [c]) r', runPrepend_ne_timeout.mpr hnt',
          ⟨n' + 1, fun m hm2 => ?_⟩,
          fun g hg => runPrepend_ne_thrown.mpr (hng' g hg)⟩
        obtain ⟨m', rfl⟩ : ∃ m', m = m' + 1 := ⟨m - 1, by omega⟩
        rw [scanF_cons_nondollar hc, hn' m' (by omega)]

/-- Every scan stabilises on an acyclic app. -/
theorem scanF_stab {app : ClientApp} {rk : PanelButton → Nat}
    (hrk : RankOk app rk) (ob : Option PanelButton) :
    ∀ (N : Nat) (cs : List Char) (seen : List SetKey),
      keysLeft app ob cs seen ≤ N →
      ∃ r, r ≠ Run.timeout ∧ (∃ n, ∀ m, n ≤ m → scanF m app ob cs seen = r) ∧
        (∀ g, app.setGlobals = some g → r ≠ .thrown) := by
  intro N
  induction N using Nat.strong_induction_on with
  | _ N ih =>
    intro cs seen hN
    refine scanF_stab_aux hrk ob N ?_ cs.length cs seen le_rfl hN
    intro cs' seen' hlt
    exact ih (keysLeft app ob cs' seen') hlt cs' seen' le_rfl

/-- The `is`-template graph is acyclic: some rank decreases along `is`. -/
def AcyclicTemplates (app : ClientApp) : Prop := ∃ rk, RankOk app rk

def c6App : ClientApp := ⟨some [], none⟩
def c6Button : PanelButton := { text := "" }

/-- C6 counterexample: the claim promises that on every app with acyclic
templates, every expansion returns a string "without hanging or throwing".
On an app without `setGlobals` (every app this repository builds — see C1),
expanding a token whose key resolves nowhere throws the `TypeError` from
`app.setGlobals[setKey]`, so the run ends in an exception, not a string. -/
theorem C6_unresolvable_token_throws :
    expandF 5 c6App (some c6Button) "${a}" [] = .thrown ∧
    EvalExpand c6App (some c6Button) "${a}" [] .thrown := by
  refine ⟨by decide, evalExpand_of_fuel (n := 5) (by decide) (by decide)⟩

/-- C6 (amended): for every app whose templates form an acyclic `is` graph,
every button and every input string — including self- and mutually-
referential set chains — `expand` terminates with a deterministic outcome
(the run stabilises below any sufficiently large recursion bound and never
hangs); when the app moreover has a defined `setGlobals` map the outcome is
a finite string and no exception is thrown, while a `setGlobals`-less app
can throw on unresolvable tokens (see the counterexample and C1). -/
theorem C6_expansion_terminates_deterministically :
    (∀ (app : ClientApp) (rk : PanelButton → Nat), RankOk app rk →
      ∀ (ob : Option PanelButton) (text : String) (seen : List SetKey),
        ∃ r, EvalExpand app ob text seen r) ∧
    (∀ (app : ClientApp) (rk : PanelButton → Nat), RankOk app rk →
      ∀ (g : List (String × String)), app.setGlobals = some g →
      ∀ (ob : Option PanelButton) (text : String) (seen : List SetKey),
        ∃ s : String, EvalExpand app ob text seen (.ret s)) := by
  constructor
  · intro app rk hrk ob text seen
    obtain ⟨r, hnt, ⟨n, hn⟩, _⟩ := scanF_stab hrk ob
      (keysLeft app ob text.data seen) text.data seen le_rfl
    refine ⟨r, hnt, n + 1, fun m hm => ?_⟩
    obtain ⟨m', rfl⟩ : ∃ m', m = m' + 1 := ⟨m - 1, by omega⟩
    rw [expandF]
    exact hn m' (by omega)
  · intro app rk hrk g hg ob text seen
    obtain ⟨r, hnt, ⟨n, hn⟩, hng⟩ := scanF_stab hrk ob
      (keysLeft app ob text.data seen) text.data seen le_rfl
    cases r with
    | timeout => exact absurd rfl hnt
    | thrown => exact absurd rfl (hng g hg)
    | ret s =>
      refine ⟨s, by simp, n + 1, fun m hm => ?_⟩
      obtain ⟨m', rfl⟩ : ∃ m', m = m' + 1 := ⟨m - 1, by omega⟩
      rw [expandF]
      exact hn m' (by omega)

/-- Witness for C6's amended theorem on a concrete acyclic app with a
defined fallback map. -/
theorem C6_expansion_terminates_witness :
    (∃ r, EvalExpand ⟨none, some []⟩ none "hi ${x}" [] r) ∧
    (∃ s, EvalExpand ⟨none, some []⟩ none "hi ${x}" [] (.ret s)) := by
  have hrk : RankOk ⟨none, some []⟩ (fun _ => 0) := by
    intro b p hp
    unfold getParent at hp
    cases his : b.is with
    | none => rw [his] at hp; cases hp
    | some nm =>
      rw [his] at hp
      by_cases hnm : nm = "" <;> simp [hnm] at hp
  exact ⟨C6_expansion_terminates_deterministically.1 ⟨none, some []⟩ (fun _ => 0) hrk
      none "hi ${x}" [],
    C6_expansion_terminates_deterministically.2 ⟨none, some []⟩ (fun _ => 0) hrk
      [] rfl none "hi ${x}" []⟩
